import Mathlib

/-!
Shallow embedding of the core of the synthetic-data-generator repository:
the generator families (numeric / text / date), the constraint engine
(`BaseGenerator.apply_constraints`, `introduce_outliers`), the anonymization
engine (`DataAnonymizer`) and the differential-privacy engine
(`DifferentialPrivacy`).

Modelling conventions:
- Python's global seeded pseudorandom source (`random` / `np.random`) is an
  explicit state `Rng`: two infinite streams (one of naturals for discrete
  draws, one of rationals for continuous draws) plus positions.  Seeding with
  a fixed seed fixes the streams, so a "run with seed s" is an application to
  a fixed `Rng` value.  Continuous distributions (uniform / normal / laplace /
  lognormal) are abstracted by their support: a draw is the next stream value,
  shaped so that it can take exactly the values the real distribution can.
- Python machine floats are modelled as rationals; `round` is ideal decimal
  round-half-to-even (CPython's documented behaviour for `round`).
- Python strings are `List Char`; `datetime.date` is a day count from
  1970-01-01, `datetime.datetime` a second count from the epoch.
- Fallible code returns `Option` / `Except`: `none` / `.error` marks a raised
  exception at the corresponding place in the source.
- `datetime.now()` (the wall clock, used only by the date generator's
  per-value fallback) is an explicit extra parameter `clock`.
-/

/-- Python strings, modelled as lists of characters. -/
abbrev Str := List Char

/-- Explicit pseudorandom state: the seeded source shared by all generators.
`ints` feeds discrete draws (randint, sample, choice), `reals` feeds
continuous draws (uniform, normal, laplace). -/
structure Rng where
  ints : Nat → Nat
  reals : Nat → ℚ
  ipos : Nat
  rpos : Nat

/-- Draw the next natural from the discrete stream. -/
def Rng.nextNat (r : Rng) : Nat × Rng :=
  (r.ints r.ipos, { r with ipos := r.ipos + 1 })

/-- Draw the next rational from the continuous stream. -/
def Rng.nextReal (r : Rng) : ℚ × Rng :=
  (r.reals r.rpos, { r with rpos := r.rpos + 1 })

/-- Python's `random.randint(lo, hi)`: a uniform integer in `[lo, hi]`.
Callers check `lo ≤ hi` (Python raises ValueError otherwise, before drawing). -/
def randint (lo hi : ℤ) (r : Rng) : ℤ × Rng :=
  let (n, r') := r.nextNat
  (lo + (n : ℤ) % (hi - lo + 1), r')

/-- Clamp a rational into `[0, 1]`; used to shape the abstract stream into the
support of `random.random()` / the fraction behind `random.uniform`. -/
def clamp01 (q : ℚ) : ℚ := max 0 (min 1 q)

/-- Python's `random.random()`: a draw in `[0, 1]`. -/
def randomUnit (r : Rng) : ℚ × Rng :=
  let (q, r') := r.nextReal
  (clamp01 q, r')

/-- Python's `random.uniform(a, b)`: `a + fraction · (b - a)`. -/
def uniformDraw (a b : ℚ) (r : Rng) : ℚ × Rng :=
  let (q, r') := r.nextReal
  (a + clamp01 q * (b - a), r')

/-- `np.random.normal(mu, sigma)` for `sigma ≥ 0`: the support is all of the
reals when `sigma > 0` and `{mu}` when `sigma = 0`, abstracted as
`mu + sigma · q` with `q` the next stream rational. -/
def normalDraw (mu sigma : ℚ) (r : Rng) : ℚ × Rng :=
  let (q, r') := r.nextReal
  (mu + sigma * q, r')

/-- `np.random.laplace(0, scale)` for `scale ≥ 0`: support is all reals for
positive scale, `{0}` for zero scale, abstracted as `scale · q`. -/
def laplaceDraw (scale : ℚ) (r : Rng) : ℚ × Rng :=
  let (q, r') := r.nextReal
  (scale * q, r')

/-- `np.random.lognormal(mu, sigma)`: support is the positive reals,
abstracted as a positive shaping of the next stream rational. -/
def lognormalDraw (r : Rng) : ℚ × Rng :=
  let (q, r') := r.nextReal
  ((if 0 < q then q else 1 - q), r')

/-- Python's `random.choice(xs)` on a non-empty list. -/
def randchoice {α : Type} (xs : List α) (dflt : α) (r : Rng) : α × Rng :=
  let (n, r') := r.nextNat
  (xs.getD (n % xs.length) dflt, r')

/-- Round a rational to the nearest integer, ties to even (CPython `round`). -/
def roundHalfEven (q : ℚ) : ℤ :=
  let n := ⌊q⌋
  let f := q - (n : ℚ)
  if f < 1/2 then n
  else if 1/2 < f then n + 1
  else if n % 2 = 0 then n else n + 1

/-- Python's `round(q, d)`: round to `d` decimal places, ties to even. -/
def pyRound (q : ℚ) (d : Nat) : ℚ :=
  (roundHalfEven (q * (10 ^ d : ℕ)) : ℚ) / (10 ^ d : ℕ)

/-- Python's `int()` on a number: truncation toward zero. -/
def pyTrunc (q : ℚ) : ℤ := if 0 ≤ q then ⌊q⌋ else ⌈q⌉

/-- A dynamically typed Python value as it flows through the core:
`vnone` is `None`, `vdate` a `datetime.date` as days since 1970-01-01,
`vdatetime` a `datetime.datetime` as seconds since the epoch, `vtime` a
`datetime.time` as seconds since midnight. -/
inductive Value where
  | vnone : Value
  | vint : ℤ → Value
  | vfloat : ℚ → Value
  | vstr : Str → Value
  | vdate : ℤ → Value
  | vdatetime : ℤ → Value
  | vtime : ℤ → Value
  deriving DecidableEq

/-- Decimal digits of a natural number, most significant first; the fuel
argument (any bound above the digit count) keeps the recursion structural. -/
def natDigitsAux : Nat → Nat → Str
  | 0, _ => []
  | fuel + 1, n =>
      if n < 10 then [Nat.digitChar n]
      else natDigitsAux fuel (n / 10) ++ [Nat.digitChar (n % 10)]

/-- Decimal digits of a natural number, most significant first. -/
def natDigits (n : Nat) : Str := natDigitsAux (n + 1) n

/-- Decimal rendering of an integer, matching Python `str` on `int`. -/
def intStr (n : ℤ) : Str :=
  if n < 0 then '-' :: natDigits n.natAbs else natDigits n.natAbs

/-- Numeric value of a decimal digit character. -/
def digitVal (c : Char) : Nat := c.toNat - 48

/-- Decode a digit string back to a natural (left fold, base 10). -/
def digitsToNat (s : Str) : Nat := s.foldl (fun a c => a * 10 + digitVal c) 0

/-- Zero-padded decimal rendering of width `w`. -/
def padNum (w : Nat) (n : Nat) : Str :=
  let s := natDigits n
  List.replicate (w - s.length) '0' ++ s

/-- Gregorian leap-year test. -/
def isLeap (y : Nat) : Bool := y % 4 = 0 ∧ (y % 100 ≠ 0 ∨ y % 400 = 0)

/-- Days in a month of the proleptic Gregorian calendar. -/
def daysInMonth (y m : Nat) : Nat :=
  if m = 2 then (if isLeap y then 29 else 28)
  else if m = 4 ∨ m = 6 ∨ m = 9 ∨ m = 11 then 30
  else 31

/-- Day count since 1970-01-01 of a civil date (standard civil-from-days
inverse; all intermediate divisions act on non-negative values). -/
def daysFromCivil (y m d : ℤ) : ℤ :=
  let y' := if m ≤ 2 then y - 1 else y
  let era := (if 0 ≤ y' then y' else y' - 399) / 400
  let yoe := y' - era * 400
  let mp := (m + 9) % 12
  let doy := (153 * mp + 2) / 5 + d - 1
  let doe := yoe * 365 + yoe / 4 - yoe / 100 + doy
  era * 146097 + doe - 719468

/-- Civil date (year, month, day) of a day count since 1970-01-01. -/
def civilFromDays (z : ℤ) : ℤ × ℤ × ℤ :=
  let z' := z + 719468
  let era := (if 0 ≤ z' then z' else z' - 146096) / 146097
  let doe := z' - era * 146097
  let yoe := (doe - doe / 1460 + doe / 36524 - doe / 146096) / 365
  let y := yoe + era * 400
  let doy := doe - (365 * yoe + yoe / 4 - yoe / 100)
  let mp := (5 * doy + 2) / 153
  let d := doy - (153 * mp + 2) / 5 + 1
  let m := mp + (if mp < 10 then 3 else -9)
  ((if m ≤ 2 then y + 1 else y), m, d)

/-- ISO rendering of a day count, as `str(datetime.date)` produces. -/
def formatDate (z : ℤ) : Str :=
  let c := civilFromDays z
  padNum 4 c.1.toNat ++ '-' :: padNum 2 c.2.1.toNat ++ '-' :: padNum 2 c.2.2.toNat

/-- Rendering of a second count, as `str(datetime.datetime)` produces. -/
def formatDateTime (t : ℤ) : Str :=
  let days := (t / 86400 : ℤ) - (if t % 86400 < 0 then 1 else 0)
  let sod := (t - days * 86400).toNat
  formatDate days ++ ' ' :: padNum 2 (sod / 3600) ++ ':' ::
    padNum 2 (sod % 3600 / 60) ++ ':' :: padNum 2 (sod % 60)

/-- Python `str.split(sep)` for a one-character separator: splits at every
occurrence, keeping empty pieces. -/
def pySplit (c : Char) : Str → List Str
  | [] => [[]]
  | x :: xs =>
      match pySplit c xs with
      | [] => [[]]
      | y :: ys => if x = c then [] :: y :: ys else (x :: y) :: ys

/-- Python `str.split()` with no argument: split on whitespace runs,
dropping empty tokens. -/
def splitWsAux : Str → Str → List Str
  | [], acc => if acc = [] then [] else [acc.reverse]
  | c :: cs, acc =>
      if c.isWhitespace then
        (if acc = [] then splitWsAux cs [] else acc.reverse :: splitWsAux cs [])
      else splitWsAux cs (c :: acc)

/-- Python `str.split()` with no argument. -/
def splitWs (s : Str) : List Str := splitWsAux s []

/-- Parse a digit-only, non-empty string as a natural number. -/
def parseNatDigits (s : Str) : Option Nat :=
  if s ≠ [] ∧ s.all Char.isDigit then some (digitsToNat s) else none

/-- Python `datetime.strptime(s, s2)` for the date pattern used throughout the
source (`%Y-%m-%d`): three dash-separated digit groups forming a valid civil
date with year in `[1, 9999]`; the day count since the epoch on success,
`none` models the `ValueError` on failure. -/
def parseDate (s : Str) : Option ℤ :=
  match pySplit '-' s with
  | [ys, ms, ds] =>
      match parseNatDigits ys, parseNatDigits ms, parseNatDigits ds with
      | some y, some m, some d =>
          if 1 ≤ y ∧ y ≤ 9999 ∧ ys.length ≤ 4 ∧ 1 ≤ m ∧ m ≤ 12 ∧ ms.length ≤ 2 ∧
             1 ≤ d ∧ d ≤ daysInMonth y m ∧ ds.length ≤ 2
          then some (daysFromCivil y m d) else none
      | _, _, _ => none
  | _ => none

/-- Python `datetime.strptime(s, p)` for the time pattern `%H:%M:%S`:
seconds since midnight on success (`%S` admits leap seconds up to 61). -/
def parseTime (s : Str) : Option ℤ :=
  match pySplit ':' s with
  | [hs, ms, ss] =>
      match parseNatDigits hs, parseNatDigits ms, parseNatDigits ss with
      | some h, some m, some sec =>
          if h ≤ 23 ∧ hs.length ≤ 2 ∧ m ≤ 59 ∧ ms.length ≤ 2 ∧
             sec ≤ 61 ∧ ss.length ≤ 2
          then some ((h : ℤ) * 3600 + m * 60 + sec) else none
      | _, _, _ => none
  | _ => none

/-- Python `int()` applied to a string: optional sign then digits (the source
only ever feeds it already-stripped strings). -/
def parseIntStr (s : Str) : Option ℤ :=
  match s with
  | '-' :: rest => (parseNatDigits rest).map (fun n => -(n : ℤ))
  | '+' :: rest => (parseNatDigits rest).map (fun n => (n : ℤ))
  | _ => (parseNatDigits s).map (fun n => (n : ℤ))

/-- Rendering of a rational; stands in for Python `str` on floats, whose exact
shortest-repr formatting is outside the rational model.  No claim below
depends on the rendering of a non-integral numeric value. -/
def ratStr (q : ℚ) : Str :=
  if q.den = 1 then intStr q.num ++ ".0".toList
  else intStr q.num ++ '/' :: natDigits q.den

/-- Python `str(item)` over the dynamic values the core passes around. -/
def pyStr : Value → Str
  | Value.vnone => "None".toList
  | Value.vint n => intStr n
  | Value.vfloat q => ratStr q
  | Value.vstr s => s
  | Value.vdate z => formatDate z
  | Value.vdatetime t => formatDateTime t
  | Value.vtime t => padNum 2 (t.toNat / 3600) ++ ':' :: padNum 2 (t.toNat % 3600 / 60) ++
      ':' :: padNum 2 (t.toNat % 60)

/-! ## Anonymization engine (`src/privacy/anonymizer.py`, `DataAnonymizer`) -/

/-- Field-type tags compared against in the anonymizer's dispatch. -/
def ftEmail : Str := "email".toList

/-- Field-type tag for names. -/
def ftName : Str := "name".toList

/-- Field-type tag for phone numbers. -/
def ftPhone : Str := "phone".toList

/-- Field-type tag for addresses. -/
def ftAddress : Str := "address".toList

/-- `DataAnonymizer._mask_pii`, email branch, applied to `str(item)`. -/
def maskEmailItem (s : Str) : Str :=
  if '@' ∈ s then
    let parts := pySplit '@' s
    let p0 := parts.headD []
    let p1 := (parts.drop 1).headD []
    if 1 < p0.length then
      p0.take 1 ++ List.replicate (p0.length - 1) '*' ++ '@' :: p1
    else
      '*' :: '@' :: p1
  else s

/-- `DataAnonymizer._mask_pii`, name branch: star every character but the
first of each whitespace-delimited token. -/
def maskNameItem (s : Str) : Str :=
  let words := splitWs s
  let maskedWords := words.map (fun w =>
    if 1 < w.length then w.take 1 ++ List.replicate (w.length - 1) '*' else w)
  List.intercalate [' '] maskedWords

/-- `DataAnonymizer._mask_pii`, phone branch: keep the last four digits, star
the rest, best-effort reinsert the original dash or parenthesis format. -/
def maskPhoneItem (s : Str) : Str :=
  let digits := s.filter Char.isDigit
  if 4 ≤ digits.length then
    let masked := List.replicate (digits.length - 4) '*' ++ digits.drop (digits.length - 4)
    if '-' ∈ s then
      masked.take 3 ++ '-' :: (masked.drop 3).take 3 ++ '-' :: masked.drop 6
    else if '(' ∈ s then
      '(' :: masked.take 3 ++ ')' :: ' ' :: (masked.drop 3).take 3 ++ '-' :: masked.drop 6
    else masked
  else "***-***-****".toList

/-- `DataAnonymizer._mask_pii`, address branch: keep the first token, star the
trailing characters of the remaining tokens. -/
def maskAddressItem (s : Str) : Str :=
  let words := splitWs s
  match words with
  | [] => "*** *** ***".toList
  | w0 :: rest =>
      let maskedRest := rest.map (fun w =>
        if 2 < w.length then w.take 1 ++ List.replicate (w.length - 1) '*' else "**".toList)
      List.intercalate [' '] (w0 :: maskedRest)

/-- `DataAnonymizer._mask_pii`: per-item masking over the column; `None`
passes through, any other value is first stringified. -/
def maskPii (data : List Value) (fieldType : Str) : List Value :=
  data.map (fun v =>
    match v with
    | Value.vnone => Value.vnone
    | _ =>
        let s := pyStr v
        if fieldType = ftEmail then Value.vstr (maskEmailItem s)
        else if fieldType = ftName then Value.vstr (maskNameItem s)
        else if fieldType = ftPhone then Value.vstr (maskPhoneItem s)
        else if fieldType = ftAddress then Value.vstr (maskAddressItem s)
        else Value.vstr s)

/-- Association lookup in a pseudonym map (first match). -/
def alookup (k : Str) : List (Str × Str) → Option Str
  | [] => none
  | (k', v) :: rest => if k = k' then some v else alookup k rest

/-- The counter-numbered alias `user{n}@example.com` for email columns. -/
def emailAlias (n : Nat) : Str :=
  "user".toList ++ natDigits n ++ "@example.com".toList

/-- The counter-numbered alias `Person {n}` for name columns. -/
def nameAlias (n : Nat) : Str := "Person ".toList ++ natDigits n

/-- The alias assigned by `DataAnonymizer._pseudonymize` when a fresh value is
seen while the map has `mapLen` entries; phone and address aliases draw from
the random source, the others are numbered by `mapLen + 1`. -/
def mkAlias (fieldType : Str) (mapLen : Nat) (r : Rng) : Str × Rng :=
  if fieldType = ftEmail then
    (emailAlias (mapLen + 1), r)
  else if fieldType = ftName then
    (nameAlias (mapLen + 1), r)
  else if fieldType = ftPhone then
    let (a, r1) := randint 100 999 r
    let (b, r2) := randint 1000 9999 r1
    ("555-".toList ++ intStr a ++ '-' :: intStr b, r2)
  else if fieldType = ftAddress then
    let (a, r1) := randint 100 9999 r
    (intStr a ++ " Anonymized St".toList, r1)
  else
    ("Pseudonym_".toList ++ natDigits (mapLen + 1), r)

/-- `DataAnonymizer._pseudonymize`, main loop: the pseudonym map is an
insertion-ordered association list built fresh per call. -/
def pseudonymizeAux (fieldType : Str) :
    List Value → List (Str × Str) → Rng → List Value × Rng
  | [], _, r => ([], r)
  | v :: vs, pm, r =>
      if v = Value.vnone then
        let q := pseudonymizeAux fieldType vs pm r
        (Value.vnone :: q.1, q.2)
      else
        let s := pyStr v
        match alookup s pm with
        | some a =>
            let q := pseudonymizeAux fieldType vs pm r
            (Value.vstr a :: q.1, q.2)
        | none =>
            let ar := mkAlias fieldType pm.length r
            let q := pseudonymizeAux fieldType vs (pm ++ [(s, ar.1)]) ar.2
            (Value.vstr ar.1 :: q.1, q.2)

/-- `DataAnonymizer._pseudonymize`. -/
def pseudonymize (data : List Value) (fieldType : Str) (r : Rng) : List Value × Rng :=
  pseudonymizeAux fieldType data [] r

/-- A per-item loop `for item in data: out.append(step(item))` where each
step may consume random state: the common shape of the anonymizer's
column-rewriting passes. -/
def stateMap (step : Value → Rng → Value × Rng) : List Value → Rng → List Value × Rng
  | [], r => ([], r)
  | v :: vs, r =>
      let p := step v r
      let q := stateMap step vs p.2
      (p.1 :: q.1, q.2)

/-- The same per-item loop for steps that may raise (`none` aborts the whole
column, as an uncaught Python exception would). -/
def stateMapM (step : Value → Rng → Option (Value × Rng)) :
    List Value → Rng → Option (List Value × Rng)
  | [], r => some ([], r)
  | v :: vs, r =>
      (step v r).bind (fun p =>
        (stateMapM step vs p.2).map (fun q => (p.1 :: q.1, q.2)))

/-- One item of `DataAnonymizer._fuzz_dates`: datetimes get a uniform day
offset in `[-daysRange, daysRange]`; strings are fuzzed when they parse as
`%Y-%m-%d` and pass through unchanged otherwise; `date` values are not
`datetime` instances in Python, so they pass through untouched. -/
def fuzzItem (daysRange : ℤ) (v : Value) (r : Rng) : Value × Rng :=
  match v with
  | Value.vnone => (Value.vnone, r)
  | Value.vdatetime t =>
      let (d, r1) := randint (-daysRange) daysRange r
      (Value.vdatetime (t + d * 86400), r1)
  | Value.vstr s =>
      match parseDate s with
      | some z =>
          let (d, r1) := randint (-daysRange) daysRange r
          (Value.vstr (formatDate (z + d)), r1)
      | none => (Value.vstr s, r)
  | _ => (v, r)

/-- `DataAnonymizer._fuzz_dates`. -/
def fuzzDates (daysRange : ℤ) (data : List Value) (r : Rng) : List Value × Rng :=
  stateMap (fuzzItem daysRange) data r

/-- One item of `DataAnonymizer._add_noise`: multiply numeric entries by
`1 + uniform(-noiseLevel, noiseLevel)`, re-rounding per original type. -/
def noiseItem (noiseLevel : ℚ) (v : Value) (r : Rng) : Value × Rng :=
  match v with
  | Value.vnone => (Value.vnone, r)
  | Value.vint n =>
      let (u, r1) := uniformDraw (-noiseLevel) noiseLevel r
      (Value.vint (roundHalfEven ((n : ℚ) * (1 + u))), r1)
  | Value.vfloat q =>
      let (u, r1) := uniformDraw (-noiseLevel) noiseLevel r
      (Value.vfloat (pyRound (q * (1 + u)) 2), r1)
  | _ => (v, r)

/-- `DataAnonymizer._add_noise`. -/
def addNoiseAnon (noiseLevel : ℚ) (data : List Value) (r : Rng) : List Value × Rng :=
  stateMap (noiseItem noiseLevel) data r

/-- `DataAnonymizer._generalize_data`: fixed labels for cities, prefix
masking for zip codes, fixed age bands, the literal `Generalized` otherwise. -/
def generalizeData (data : List Value) (fieldType : Str) : List Value :=
  data.map (fun v =>
    match v with
    | Value.vnone => Value.vnone
    | _ =>
        let s := pyStr v
        if fieldType = "city".toList then Value.vstr "Generalized Location".toList
        else if fieldType = "zip_code".toList then
          (if 3 ≤ s.length then Value.vstr (s.take 3 ++ "**".toList)
           else Value.vstr "***".toList)
        else if fieldType = "age".toList then
          (match parseIntStr s with
           | some a =>
               Value.vstr (if a < 18 then "Under 18".toList
                 else if a < 25 then "18-24".toList
                 else if a < 35 then "25-34".toList
                 else if a < 50 then "35-49".toList
                 else "50+".toList)
           | none => Value.vstr "Unknown".toList)
        else Value.vstr "Generalized".toList)

/-- `DataAnonymizer._medium_anonymization`. -/
def mediumAnonymization (data : List Value) (fieldType : Str) (r : Rng) :
    List Value × Rng :=
  if fieldType = ftEmail ∨ fieldType = ftName ∨ fieldType = ftPhone ∨
      fieldType = ftAddress then
    (maskPii data fieldType, r)
  else if fieldType = "date".toList ∨ fieldType = "datetime".toList then
    fuzzDates 30 data r
  else if fieldType = "integer".toList ∨ fieldType = "float".toList then
    addNoiseAnon (1/10) data r
  else (data, r)

/-- `DataAnonymizer._high_anonymization`. -/
def highAnonymization (data : List Value) (fieldType : Str) (r : Rng) :
    List Value × Rng :=
  if fieldType = ftEmail ∨ fieldType = ftName ∨ fieldType = ftPhone ∨
      fieldType = ftAddress then
    pseudonymize data fieldType r
  else if fieldType = "date".toList ∨ fieldType = "datetime".toList then
    fuzzDates 365 data r
  else if fieldType = "integer".toList ∨ fieldType = "float".toList then
    addNoiseAnon (1/5) data r
  else (generalizeData data fieldType, r)

/-- `DataAnonymizer.anonymize_data`: dispatch on the anonymization level;
unknown levels, like `low`, return the input unchanged. -/
def anonymizeData (data : List Value) (fieldType : Str)
    (anonymizationLevel : Str) (r : Rng) : List Value × Rng :=
  if anonymizationLevel = "low".toList then (data, r)
  else if anonymizationLevel = "medium".toList then
    mediumAnonymization data fieldType r
  else if anonymizationLevel = "high".toList then
    highAnonymization data fieldType r
  else (data, r)

/-! ## Differential-privacy engine (`src/privacy/differential_privacy.py`) -/

/-- One item of `DifferentialPrivacy.add_laplace_noise`: one independent
Laplace draw per non-null value, rounded to integer for `int` sources and to
two decimals for `float` sources.  `none` models the `TypeError` Python
raises when a non-numeric, non-null value meets `value + noise`. -/
def laplaceItem (scale : ℚ) (v : Value) (r : Rng) : Option (Value × Rng) :=
  match v with
  | Value.vnone => some (Value.vnone, r)
  | Value.vint n =>
      let (q, r1) := laplaceDraw scale r
      some (Value.vint (roundHalfEven ((n : ℚ) + q)), r1)
  | Value.vfloat x =>
      let (q, r1) := laplaceDraw scale r
      some (Value.vfloat (pyRound (x + q) 2), r1)
  | _ => none

/-- `DifferentialPrivacy.add_laplace_noise`: an early return leaves the data
untouched when `epsilon ≤ 0`; otherwise the per-value loop runs with scale
`sensitivity / epsilon`. -/
def addLaplaceNoise (epsilon sensitivity : ℚ) (data : List Value) (r : Rng) :
    Option (List Value × Rng) :=
  if epsilon ≤ 0 then some (data, r)
  else stateMapM (laplaceItem (sensitivity / epsilon)) data r

/-- One abstract Gaussian-mechanism draw.  The true scale
`sensitivity · sqrt(2 · ln(1.25 / delta)) / epsilon` is irrational, so the
draw is abstracted as the sensitivity scaling the next stream rational: a
zero sensitivity forces a zero draw, any other support is preserved. -/
def gaussDraw (sensitivity : ℚ) (r : Rng) : ℚ × Rng :=
  let (q, r') := r.nextReal
  (sensitivity * q, r')

/-- One item of `DifferentialPrivacy.add_gaussian_noise`. -/
def gaussItem (sensitivity : ℚ) (v : Value) (r : Rng) : Option (Value × Rng) :=
  match v with
  | Value.vnone => some (Value.vnone, r)
  | Value.vint n =>
      let (q, r1) := gaussDraw sensitivity r
      some (Value.vint (roundHalfEven ((n : ℚ) + q)), r1)
  | Value.vfloat x =>
      let (q, r1) := gaussDraw sensitivity r
      some (Value.vfloat (pyRound (x + q) 2), r1)
  | _ => none

/-- `DifferentialPrivacy.add_gaussian_noise`: `delta` only enters the
(irrational) noise scale, which the model absorbs into the abstract draw. -/
def addGaussianNoise (epsilon sensitivity _delta : ℚ) (data : List Value) (r : Rng) :
    Option (List Value × Rng) :=
  if epsilon ≤ 0 then some (data, r)
  else stateMapM (gaussItem sensitivity) data r

/-- A record: a field-name-to-value mapping, as an association list. -/
abbrev Record := List (Str × Value)

/-- Python `record.get(qi, '')`: lookup with the empty string as default. -/
def recordGet (rec : Record) (k : Str) : Value :=
  match rec with
  | [] => Value.vstr []
  | (k', v) :: rest => if k = k' then v else recordGet rest k

/-- The grouping key of a record: the tuple of its quasi-identifier values. -/
def keyOf (quasiIdentifiers : List Str) (rec : Record) : List Value :=
  quasiIdentifiers.map (recordGet rec)

/-- Append a record to its group, creating the group at the end of the
insertion-ordered group list when its key is new (Python dict semantics). -/
def insertRecord (gs : List (List Value × List Record)) (k : List Value)
    (rec : Record) : List (List Value × List Record) :=
  match gs with
  | [] => [(k, [rec])]
  | (k', g) :: rest =>
      if k = k' then (k', g ++ [rec]) :: rest
      else (k', g) :: insertRecord rest k rec

/-- `check_k_anonymity`'s grouping loop over the records. -/
def buildGroups (quasiIdentifiers : List Str) :
    List Record → List (List Value × List Record) → List (List Value × List Record)
  | [], gs => gs
  | rec :: rest, gs =>
      buildGroups quasiIdentifiers rest (insertRecord gs (keyOf quasiIdentifiers rec) rec)

/-- Result of `DifferentialPrivacy.check_k_anonymity`; `minGroupSize = none`
models the `float('inf')` the early return reports for empty input (the main
path replaces a leftover infinity by 0). -/
structure KAnonResult where
  satisfied : Bool
  minGroupSize : Option Nat
  violations : Nat
  totalGroups : Nat
  deriving DecidableEq

/-- Fold computing the running minimum that starts at `float('inf')`. -/
def optMin (o : Option Nat) (n : Nat) : Option Nat :=
  match o with
  | none => some n
  | some m => some (Nat.min m n)

/-- `DifferentialPrivacy.check_k_anonymity`: group by the quasi-identifier
tuple, then report whether all groups reach size `k`, the minimum group size
and the number of violating groups.  (The source result also echoes `k`
itself on the main path only; no claim touches that key.) -/
def checkKAnonymity (data : List Record) (quasiIdentifiers : List Str)
    (k : Nat) : KAnonResult :=
  if data = [] ∨ quasiIdentifiers = [] then
    { satisfied := true, minGroupSize := none, violations := 0, totalGroups := 0 }
  else
    let gs := buildGroups quasiIdentifiers data []
    let sizes := gs.map (fun g => g.2.length)
    let mgs := sizes.foldl optMin none
    let violations := sizes.countP (fun n => n < k)
    { satisfied := violations = 0
      minGroupSize := some (mgs.getD 0)
      violations := violations
      totalGroups := gs.length }

/-! ## Constraint engine (`src/generators/base_generator.py`, `BaseGenerator`) -/

/-- The recognized keyword-constraint map, with every key optional
(`None`-like absence modelled by `Option` / a `false` default for `unique`). -/
structure Constraints where
  null_percentage : Option ℚ := none
  unique : Bool := false
  min_val : Option ℚ := none
  max_val : Option ℚ := none
  decimal_places : Option Nat := none
  start_date : Option Str := none
  end_date : Option Str := none
  start_time : Option Str := none
  end_time : Option Str := none
  outlier_percentage : Option ℚ := none

/-- Python's `random.sample(population, k)` restricted to its contract:
`k` pairwise distinct elements of the population, chosen by repeatedly
drawing a position and removing it (callers guarantee `k ≤ |population|`;
Python raises ValueError otherwise, which callers of this model map to
`none` themselves). -/
def sampleIdx : Nat → List Nat → Rng → List Nat × Rng
  | 0, _, r => ([], r)
  | k + 1, pool, r =>
      match pool with
      | [] => ([], r)
      | _ :: _ =>
          let nr := r.nextNat
          let j := nr.1 % pool.length
          let s := sampleIdx k (pool.eraseIdx j) nr.2
          (pool.getD j 0 :: s.1, s.2)

/-- Write `None` at every sampled position (the in-place `data[idx] = None`). -/
def setNulls (data : List Value) (idxs : List Nat) : List Value :=
  idxs.foldl (fun d i => d.set i Value.vnone) data

/-- The null-percentage step of `BaseGenerator.apply_constraints`:
`int(len(data) * p / 100)` positions are sampled without replacement and
nulled; `none` models the ValueError `random.sample` raises when the sample
size exceeds the population (p > 100). -/
def applyNullsStep (data : List Value) (c : Constraints) (r : Rng) :
    Option (List Value × Rng) :=
  match c.null_percentage with
  | none => some (data, r)
  | some p =>
      if 0 < p then
        let k := (⌊(data.length : ℚ) * p / 100⌋).toNat
        if k ≤ data.length then
          let s := sampleIdx k (List.range data.length) r
          some (setNulls data s.1, s.2)
        else none
      else some (data, r)

/-- The source's `while len(data) < len(data)` regeneration loop, fuelled:
the guard compares a length with itself, so the body (regenerate one value,
append it when fresh) is dead code; `regen` stands for the bound
`self.generate(1, cleaned-kwargs)` call of the loop body. -/
def uniqueRegenLoop (regen : Rng → Value × Rng) :
    Nat → List Value → Rng → List Value × Rng
  | 0, d, r => (d, r)
  | fuel + 1, d, r =>
      if d.length < d.length then
        let (nv, r1) := regen r
        let d' := if nv ∈ d then d else d ++ [nv]
        uniqueRegenLoop regen fuel d' r1
      else (d, r)

/-- The unique step of `apply_constraints`: `list(set(data))` deduplicates
(Python set order is unspecified; `List.dedup` is one representative with the
same membership), then the dead regeneration loop runs. -/
def applyUniqueStep (regen : Rng → Value × Rng) (data : List Value)
    (c : Constraints) (r : Rng) : List Value × Rng :=
  if c.unique then uniqueRegenLoop regen 1 data.dedup r else (data, r)

/-- `BaseGenerator.apply_constraints`: nulls then uniqueness.  (The source's
`if not constraints: return data` early exit coincides with both steps being
no-ops when no key is present.) -/
def applyConstraints (regen : Rng → Value × Rng) (data : List Value)
    (c : Constraints) (r : Rng) : Option (List Value × Rng) :=
  (applyNullsStep data c r).map (fun p => applyUniqueStep regen p.1 c p.2)

/-- Multiply the value at one sampled position by a factor drawn from
`{0.1, 10, 100}`; non-numeric and `None` entries are skipped without drawing
(the factor is drawn inside the guard).  An `int` times the float `0.1` is a
Python float, times the ints `10`/`100` stays an int. -/
def outlierAt (d : List Value) (i : Nat) (r : Rng) : List Value × Rng :=
  match d.getD i Value.vnone with
  | Value.vint n =>
      let (f, r1) := randchoice [(1/10 : ℚ), 10, 100] 0 r
      (d.set i (if f.den = 1 then Value.vint (n * f.num) else Value.vfloat ((n : ℚ) * f)), r1)
  | Value.vfloat q =>
      let (f, r1) := randchoice [(1/10 : ℚ), 10, 100] 0 r
      (d.set i (Value.vfloat (q * f)), r1)
  | _ => (d, r)

/-- `BaseGenerator.introduce_outliers`: sample `int(n · o / 100)` positions
and scale the numeric ones; `none` models the ValueError `random.sample`
raises when the sample size exceeds the population (o > 100). -/
def introduceOutliers (data : List Value) (outlierPercentage : ℚ) (r : Rng) :
    Option (List Value × Rng) :=
  if outlierPercentage ≤ 0 ∨ data = [] then some (data, r)
  else
    let k := (⌊(data.length : ℚ) * outlierPercentage / 100⌋).toNat
    if k ≤ data.length then
      let s := sampleIdx k (List.range data.length) r
      some (s.1.foldl (fun dr i => outlierAt dr.1 i dr.2) (data, s.2))
    else none

/-- Column-level typed errors: the `ValueError` raised for an unknown subtype
string, and the `ValueError` out of `random.sample` for an oversized sample. -/
inductive GenError where
  | unknownSubtype (family : Str) (sub : Str)
  | sampleTooLarge
  deriving DecidableEq

/-- Association lookup in a subtype dispatch table. -/
def tblLookup {α : Type} (k : Str) : List (Str × α) → Option α
  | [] => none
  | (k', v) :: rest => if k = k' then some v else tblLookup k rest

/-! ## Numeric generator (`src/generators/numeric_generator.py`) -/

/-- `_generate_integer`: `random.randint` demands integral bounds with
`min ≤ max` and raises ValueError otherwise (caught by the per-value
handler, hence `none`). -/
def genIntegerV (c : Constraints) (r : Rng) : Option (Value × Rng) :=
  let mn := c.min_val.getD 0
  let mx := c.max_val.getD 100
  if mn.den = 1 ∧ mx.den = 1 ∧ mn ≤ mx then
    let (v, r1) := randint mn.num mx.num r
    some (Value.vint v, r1)
  else none

/-- `_generate_float`: uniform in the bounds, rounded to
`decimal_places` (default 2). -/
def genFloatV (c : Constraints) (r : Rng) : Option (Value × Rng) :=
  let (v, r1) := uniformDraw (c.min_val.getD 0) (c.max_val.getD 100) r
  some (Value.vfloat (pyRound v (c.decimal_places.getD 2)), r1)

/-- `_generate_percentage`: uniform in `[0, 100]` by default, two decimals. -/
def genPercentageV (c : Constraints) (r : Rng) : Option (Value × Rng) :=
  let (v, r1) := uniformDraw (c.min_val.getD 0) (c.max_val.getD 100) r
  some (Value.vfloat (pyRound v 2), r1)

/-- `_generate_currency`: uniform in `[0, 10000]` by default, two decimals. -/
def genCurrencyV (c : Constraints) (r : Rng) : Option (Value × Rng) :=
  let (v, r1) := uniformDraw (c.min_val.getD 0) (c.max_val.getD 10000) r
  some (Value.vfloat (pyRound v 2), r1)

/-- `_generate_id`: `randint` in `[1, 999999]` by default (the `prefix`
keyword of the source is accepted but never used in the value). -/
def genIdV (c : Constraints) (r : Rng) : Option (Value × Rng) :=
  let mn := c.min_val.getD 1
  let mx := c.max_val.getD 999999
  if mn.den = 1 ∧ mx.den = 1 ∧ mn ≤ mx then
    let (v, r1) := randint mn.num mx.num r
    some (Value.vint v, r1)
  else none

/-- `_generate_transaction_amount`: a log-normal draw clamped into the
bounds, then rounded to two decimals (`round(min(max(v, mn), mx), 2)`). -/
def genTransactionAmountV (c : Constraints) (r : Rng) : Option (Value × Rng) :=
  let mn := c.min_val.getD (1/100)
  let mx := c.max_val.getD 10000
  let (v, r1) := lognormalDraw r
  some (Value.vfloat (pyRound (min (max v mn) mx) 2), r1)

/-- `_generate_salary`: normal around the bound midpoint with a sixth of the
range as deviation, clamped then rounded to two decimals; `np.random.normal`
raises for a negative deviation (bounds out of order). -/
def genSalaryV (c : Constraints) (r : Rng) : Option (Value × Rng) :=
  let mn := c.min_val.getD 30000
  let mx := c.max_val.getD 200000
  let mean := (mn + mx) / 2
  let std := (mx - mn) / 6
  if std < 0 then none
  else
    let (v, r1) := normalDraw mean std r
    some (Value.vfloat (pyRound (max (min v mx) mn) 2), r1)

/-- `_generate_age`: normal(35, 15) truncated to integer by `int()`, then
clamped into the bounds (`max(min(value, max_val), min_val)`, the clamp being
the last operation). -/
def genAgeV (c : Constraints) (r : Rng) : Option (Value × Rng) :=
  let mn := c.min_val.getD 18
  let mx := c.max_val.getD 80
  let (v, r1) := normalDraw 35 15 r
  some (Value.vfloat (max (min ((pyTrunc v : ℤ) : ℚ) mx) mn), r1)

/-- `_generate_temperature`: uniform in `[-10, 40]` by default, one decimal. -/
def genTemperatureV (c : Constraints) (r : Rng) : Option (Value × Rng) :=
  let (v, r1) := uniformDraw (c.min_val.getD (-10)) (c.max_val.getD 40) r
  some (Value.vfloat (pyRound v 1), r1)

/-- `_generate_humidity`: uniform in `[0, 100]` by default, one decimal. -/
def genHumidityV (c : Constraints) (r : Rng) : Option (Value × Rng) :=
  let (v, r1) := uniformDraw (c.min_val.getD 0) (c.max_val.getD 100) r
  some (Value.vfloat (pyRound v 1), r1)

/-- `_generate_latitude`: uniform in `[-90, 90]` by default, six decimals. -/
def genLatitudeV (c : Constraints) (r : Rng) : Option (Value × Rng) :=
  let (v, r1) := uniformDraw (c.min_val.getD (-90)) (c.max_val.getD 90) r
  some (Value.vfloat (pyRound v 6), r1)

/-- `_generate_longitude`: uniform in `[-180, 180]` by default, six decimals. -/
def genLongitudeV (c : Constraints) (r : Rng) : Option (Value × Rng) :=
  let (v, r1) := uniformDraw (c.min_val.getD (-180)) (c.max_val.getD 180) r
  some (Value.vfloat (pyRound v 6), r1)

/-- `_generate_rating`: uniform in `[1, 5]` by default, one decimal. -/
def genRatingV (c : Constraints) (r : Rng) : Option (Value × Rng) :=
  let (v, r1) := uniformDraw (c.min_val.getD 1) (c.max_val.getD 5) r
  some (Value.vfloat (pyRound v 1), r1)

/-- `_generate_score`: like salary but rounded to one decimal. -/
def genScoreV (c : Constraints) (r : Rng) : Option (Value × Rng) :=
  let mn := c.min_val.getD 0
  let mx := c.max_val.getD 100
  let mean := (mn + mx) / 2
  let std := (mx - mn) / 6
  if std < 0 then none
  else
    let (v, r1) := normalDraw mean std r
    some (Value.vfloat (pyRound (max (min v mx) mn) 1), r1)

/-- `NumericGenerator.numeric_types`: the string-keyed dispatch table. -/
def numericTypeFns : List (Str × (Constraints → Rng → Option (Value × Rng))) :=
  [("integer".toList, genIntegerV), ("float".toList, genFloatV),
   ("percentage".toList, genPercentageV), ("currency".toList, genCurrencyV),
   ("id".toList, genIdV), ("transaction_amount".toList, genTransactionAmountV),
   ("salary".toList, genSalaryV), ("age".toList, genAgeV),
   ("temperature".toList, genTemperatureV), ("humidity".toList, genHumidityV),
   ("latitude".toList, genLatitudeV), ("longitude".toList, genLongitudeV),
   ("rating".toList, genRatingV), ("score".toList, genScoreV)]

/-- The per-value loop of `NumericGenerator.generate`: a per-value exception
is swallowed and replaced by the fallback `random.randint(1, 100)`. -/
def genLoopNum (f : Constraints → Rng → Option (Value × Rng))
    (c : Constraints) : Nat → Rng → List Value × Rng
  | 0, r => ([], r)
  | n + 1, r =>
      let vr :=
        match f c r with
        | some p => p
        | none =>
            let m := randint 1 100 r
            (Value.vint m.1, m.2)
      let rest := genLoopNum f c n vr.2
      (vr.1 :: rest.1, rest.2)

/-- The `self.generate(1, cleaned-kwargs)` call bound inside the unique
constraint's dead regeneration loop (never executed; the re-entrant call is
modelled by one per-value draw with the unique and null keys stripped). -/
def numericRegen (f : Constraints → Rng → Option (Value × Rng))
    (c : Constraints) (r : Rng) : Value × Rng :=
  let g := genLoopNum f { c with unique := false, null_percentage := none } 1 r
  (g.1.headD Value.vnone, g.2)

/-- `NumericGenerator.generate`: dispatch by exact subtype string (unknown
subtype raises before any value is produced), generate `count` values with
per-value fallback, apply constraints, then outliers when requested. -/
def numericGenerate (count : Nat) (numericType : Str) (c : Constraints)
    (r : Rng) : Except GenError (List Value × Rng) :=
  match tblLookup numericType numericTypeFns with
  | none => Except.error (GenError.unknownSubtype "numeric".toList numericType)
  | some f =>
      let g := genLoopNum f c count r
      match applyConstraints (numericRegen f c) g.1 c g.2 with
      | none => Except.error GenError.sampleTooLarge
      | some p =>
          match c.outlier_percentage with
          | none => Except.ok p
          | some op =>
              match introduceOutliers p.1 op p.2 with
              | some res => Except.ok res
              | none => Except.error GenError.sampleTooLarge

/-! ## Text generator (`src/generators/text_generator.py`)

The per-value functions delegate to the external Faker library (plus a few
`random.choice` tables); their values are abstracted as a caller-supplied
function `fake` from subtype to an optional value (`none` = the per-value
exception the source catches).  Only the dispatch table and the column-level
control flow carry repository logic. -/

/-- `TextGenerator.text_types`: the registered subtype strings. -/
def textTypeNames : List Str :=
  ["name".toList, "email".toList, "address".toList, "phone".toList,
   "company".toList, "job_title".toList, "description".toList,
   "sentence".toList, "paragraph".toList, "url".toList,
   "user_agent".toList, "mac_address".toList, "credit_card".toList,
   "bank_account".toList, "patient_id".toList, "medical_record".toList,
   "diagnosis_code".toList, "medication".toList, "country".toList,
   "city".toList, "zip_code".toList, "ipv4".toList, "ipv6".toList,
   "custom".toList]

/-- The per-value loop of `TextGenerator.generate`, with the fallback
`Generated_{random.randint(1000, 9999)}`. -/
def genLoopText (fake : Str → Rng → Option (Value × Rng)) (sub : Str) :
    Nat → Rng → List Value × Rng
  | 0, r => ([], r)
  | n + 1, r =>
      let vr :=
        match fake sub r with
        | some p => p
        | none =>
            let m := randint 1000 9999 r
            (Value.vstr ("Generated_".toList ++ intStr m.1), m.2)
      let rest := genLoopText fake sub n vr.2
      (vr.1 :: rest.1, rest.2)

/-- The dead regeneration call for the text family's unique constraint. -/
def textRegen (fake : Str → Rng → Option (Value × Rng)) (sub : Str)
    (r : Rng) : Value × Rng :=
  let g := genLoopText fake sub 1 r
  (g.1.headD Value.vnone, g.2)

/-- `TextGenerator.generate`. -/
def textGenerate (fake : Str → Rng → Option (Value × Rng)) (count : Nat)
    (textType : Str) (c : Constraints) (r : Rng) :
    Except GenError (List Value × Rng) :=
  if textType ∈ textTypeNames then
    let g := genLoopText fake textType count r
    match applyConstraints (textRegen fake textType) g.1 c g.2 with
    | none => Except.error GenError.sampleTooLarge
    | some res => Except.ok res
  else Except.error (GenError.unknownSubtype "text".toList textType)

/-! ## Date generator (`src/generators/date_generator.py`) -/

/-- `_generate_date`'s core: parse the bound strings (ValueError = `none`),
then `randint(0, days_between)` (ValueError when the range is reversed). -/
def dateCore (c : Constraints) (r : Rng) : Option (ℤ × Rng) :=
  match parseDate (c.start_date.getD "2020-01-01".toList),
        parseDate (c.end_date.getD "2024-12-31".toList) with
  | some s, some e =>
      if s ≤ e then
        let (d, r1) := randint 0 (e - s) r
        some (s + d, r1)
      else none
  | _, _ => none

/-- `_generate_datetime`'s core: the bounds parsed at midnight, a uniform
second offset in `[0, (e - s) · 86400]`. -/
def datetimeCore (c : Constraints) (r : Rng) : Option (ℤ × Rng) :=
  match parseDate (c.start_date.getD "2020-01-01".toList),
        parseDate (c.end_date.getD "2024-12-31".toList) with
  | some s, some e =>
      if s ≤ e then
        let (d, r1) := randint 0 ((e - s) * 86400) r
        some (s * 86400 + d, r1)
      else none
  | _, _ => none

/-- Python `datetime.weekday()` on a second count (Monday = 0; the epoch day
1970-01-01 was a Thursday). -/
def weekdayOf (t : ℤ) : ℤ := (Int.fdiv t 86400 + 3).emod 7

/-- The `while base_date.weekday() >= 5: base_date += timedelta(days=1)`
loop of `_generate_signup_date`, fuelled (it needs at most two steps). -/
def advanceToWeekday : Nat → ℤ → ℤ
  | 0, t => t
  | fuel + 1, t => if 5 ≤ weekdayOf t then advanceToWeekday fuel (t + 86400) else t

/-- `_generate_date`. -/
def genDateV (c : Constraints) (r : Rng) : Option (Value × Rng) :=
  (dateCore c r).map (fun p => (Value.vdate p.1, p.2))

/-- `_generate_datetime`. -/
def genDatetimeV (c : Constraints) (r : Rng) : Option (Value × Rng) :=
  (datetimeCore c r).map (fun p => (Value.vdatetime p.1, p.2))

/-- `_generate_time`: parse the time bounds, draw a second count, and build
`time(hours, minutes, seconds)` — which raises when a leap-second upper bound
pushes `hours` past 23. -/
def genTimeV (c : Constraints) (r : Rng) : Option (Value × Rng) :=
  match parseTime (c.start_time.getD "00:00:00".toList),
        parseTime (c.end_time.getD "23:59:59".toList) with
  | some a, some b =>
      if a ≤ b then
        let (sec, r1) := randint a b r
        if sec ≤ 86399 then some (Value.vtime sec, r1) else none
      else none
  | _, _ => none

/-- `_generate_date_range`: a date plus a range end 1 to 30 days later,
rendered as `start to end`. -/
def genDateRangeV (c : Constraints) (r : Rng) : Option (Value × Rng) :=
  match dateCore c r with
  | some (z, r1) =>
      let (d, r2) := randint 1 30 r1
      some (Value.vstr (formatDate z ++ " to ".toList ++ formatDate (z + d)), r2)
  | none => none

/-- `_generate_signup_date`: the weekday-bias coin is flipped first, then a
datetime is drawn in either branch; the biased branch walks forward to the
next weekday. -/
def genSignupDateV (c : Constraints) (r : Rng) : Option (Value × Rng) :=
  let (p, r1) := randomUnit r
  match datetimeCore c r1 with
  | some (t, r2) =>
      some (Value.vdatetime (if p < 7/10 then advanceToWeekday 7 t else t), r2)
  | none => none

/-- `_generate_transaction_date`: with probability 0.6 the time of day is
overwritten by a uniform draw within business hours 09:00–17:59:59. -/
def genTransactionDateV (c : Constraints) (r : Rng) : Option (Value × Rng) :=
  match datetimeCore c r with
  | some (t, r1) =>
      let (p, r2) := randomUnit r1
      if p < 6/10 then
        let (h, r3) := randint 9 17 r2
        let (m, r4) := randint 0 59 r3
        let (s, r5) := randint 0 59 r4
        some (Value.vdatetime (t - t.emod 86400 + h * 3600 + m * 60 + s), r5)
      else some (Value.vdatetime t, r2)
  | none => none

/-- `_generate_hire_date`: plain date sampling. -/
def genHireDateV (c : Constraints) (r : Rng) : Option (Value × Rng) :=
  genDateV c r

/-- `_generate_visit_date`: plain datetime sampling. -/
def genVisitDateV (c : Constraints) (r : Rng) : Option (Value × Rng) :=
  genDatetimeV c r

/-- `_generate_post_date`: with probability 0.4 the time of day is
overwritten by a uniform draw within evening hours 18:00–23:59:59. -/
def genPostDateV (c : Constraints) (r : Rng) : Option (Value × Rng) :=
  match datetimeCore c r with
  | some (t, r1) =>
      let (p, r2) := randomUnit r1
      if p < 4/10 then
        let (h, r3) := randint 18 23 r2
        let (m, r4) := randint 0 59 r3
        let (s, r5) := randint 0 59 r4
        some (Value.vdatetime (t - t.emod 86400 + h * 3600 + m * 60 + s), r5)
      else some (Value.vdatetime t, r2)
  | none => none

/-- `_generate_sensor_timestamp`: seconds and microseconds zeroed out. -/
def genSensorTimestampV (c : Constraints) (r : Rng) : Option (Value × Rng) :=
  match datetimeCore c r with
  | some (t, r1) => some (Value.vdatetime (t - t.emod 60), r1)
  | none => none

/-- `DateGenerator.date_types`: the string-keyed dispatch table. -/
def dateTypeFns : List (Str × (Constraints → Rng → Option (Value × Rng))) :=
  [("date".toList, genDateV), ("datetime".toList, genDatetimeV),
   ("time".toList, genTimeV), ("date_range".toList, genDateRangeV),
   ("signup_date".toList, genSignupDateV),
   ("transaction_date".toList, genTransactionDateV),
   ("hire_date".toList, genHireDateV), ("visit_date".toList, genVisitDateV),
   ("post_date".toList, genPostDateV),
   ("sensor_timestamp".toList, genSensorTimestampV)]

/-- The per-value loop of `DateGenerator.generate`: a per-value exception is
replaced by `datetime.now()` — the wall clock, an input that is not part of
the seeded random state. -/
def genLoopDate (f : Constraints → Rng → Option (Value × Rng))
    (c : Constraints) (clock : ℤ) : Nat → Rng → List Value × Rng
  | 0, r => ([], r)
  | n + 1, r =>
      let vr :=
        match f c r with
        | some p => p
        | none => (Value.vdatetime clock, r)
      let rest := genLoopDate f c clock n vr.2
      (vr.1 :: rest.1, rest.2)

/-- The dead regeneration call for the date family's unique constraint. -/
def dateRegen (f : Constraints → Rng → Option (Value × Rng))
    (c : Constraints) (clock : ℤ) (r : Rng) : Value × Rng :=
  let g := genLoopDate f { c with unique := false, null_percentage := none } clock 1 r
  (g.1.headD Value.vnone, g.2)

/-- `DateGenerator.generate`. -/
def dateGenerate (count : Nat) (dateType : Str) (c : Constraints) (r : Rng)
    (clock : ℤ) : Except GenError (List Value × Rng) :=
  match tblLookup dateType dateTypeFns with
  | none => Except.error (GenError.unknownSubtype "date".toList dateType)
  | some f =>
      let g := genLoopDate f c clock count r
      match applyConstraints (dateRegen f c clock) g.1 c g.2 with
      | none => Except.error GenError.sampleTooLarge
      | some res => Except.ok res

/-- Project the value column out of a generator result, discarding the
random state (which holds stream closures and is not compared). -/
def exValues (e : Except GenError (List Value × Rng)) : Option (List Value) :=
  match e with
  | Except.ok (d, _) => some d
  | Except.error _ => none

/-! ## Derived definitions used by the specification statements -/

/-- The registered numeric subtype strings. -/
def numericTypeNames : List Str := numericTypeFns.map Prod.fst

/-- The registered date subtype strings. -/
def dateTypeNames : List Str := dateTypeFns.map Prod.fst

/-- Null propagation from an input column to an output column: same length,
and every position holding `None` in the input holds `None` in the output. -/
def NullPres (input output : List Value) : Prop :=
  output.length = input.length ∧
  ∀ i : Nat, input.getD i Value.vnone = Value.vnone →
    output.getD i Value.vnone = Value.vnone

/-- Distinct elements of a list in first-seen order, continuing from an
accumulator of already-seen elements. -/
def firstSeenAcc {α : Type} [DecidableEq α] (seen : List α) : List α → List α
  | [] => seen
  | x :: rest =>
      if x ∈ seen then firstSeenAcc seen rest
      else firstSeenAcc (seen ++ [x]) rest

/-- Distinct elements of a list in first-seen order. -/
def firstSeen {α : Type} [DecidableEq α] (l : List α) : List α :=
  firstSeenAcc [] l

/-- Index of the first occurrence of an element. -/
def firstIdx {α : Type} [DecidableEq α] (a : α) : List α → Nat
  | [] => 0
  | x :: xs => if x = a then 0 else firstIdx a xs + 1

/-- The stringified non-null entries of a column, in order: the key sequence
the pseudonym map is built from. -/
def strsOf (data : List Value) : List Str :=
  (data.filter (fun v => decide (v ≠ Value.vnone))).map pyStr

/-- Size of the group of records sharing the quasi-identifier key `K`. -/
def cntKey (quasiIdentifiers : List Str) (records : List Record)
    (K : List Value) : Nat :=
  records.countP (fun rec => decide (keyOf quasiIdentifiers rec = K))

/-- Well-formed percentage constraints: the data model bounds
`null_percentage` (and the outlier percentage) by 100, which keeps
`random.sample`'s size within the population. -/
def wfPercent (c : Constraints) : Prop :=
  (∀ p, c.null_percentage = some p → p ≤ 100) ∧
  (∀ o, c.outlier_percentage = some o → o ≤ 100)

/-- Well-formed date bounds: both bound strings parse and are ordered, so no
per-value exception (and hence no wall-clock fallback) can occur. -/
def wfDateBounds (c : Constraints) : Prop :=
  ∃ s e, parseDate (c.start_date.getD "2020-01-01".toList) = some s ∧
    parseDate (c.end_date.getD "2024-12-31".toList) = some e ∧ s ≤ e

/-- Well-formed time bounds for the `time` subtype: both parse, ordered, and
the upper bound stays below 24:00:00 (a leap-second bound can push the drawn
second count past what `datetime.time` accepts). -/
def wfTimeBounds (c : Constraints) : Prop :=
  ∃ a b, parseTime (c.start_time.getD "00:00:00".toList) = some a ∧
    parseTime (c.end_time.getD "23:59:59".toList) = some b ∧ a ≤ b ∧ b ≤ 86399

/-- A fixed random state whose streams are constantly zero: one concrete
seeded run. -/
def constRng : Rng := { ints := fun _ => 0, reals := fun _ => 0, ipos := 0, rpos := 0 }

/-- A fixed random state whose continuous stream constantly yields 6 (a
normal draw six deviations above the mean). -/
def rngSix : Rng := { ints := fun _ => 0, reals := fun _ => 6, ipos := 0, rpos := 0 }

/-- The pseudonym map a counter-numbered alias family builds after seeing the
distinct strings `seen`, numbering from `start + 1`. -/
def aliasMap (aliasFn : Nat → Str) (start : Nat) : List Str → List (Str × Str)
  | [] => []
  | s :: rest => (s, aliasFn (start + 1)) :: aliasMap aliasFn (start + 1) rest

/-- Specification-side view of `check_k_anonymity`'s grouping: the distinct
keys in first-seen order, each paired with the records carrying it. -/
def groupsOf (quasiIdentifiers : List Str) (recs : List Record) :
    List (List Value × List Record) :=
  (firstSeen (recs.map (keyOf quasiIdentifiers))).map
    (fun K => (K, recs.filter (fun rec => decide (keyOf quasiIdentifiers rec = K))))

/-- Concrete records for evaluating `checkKAnonymity`: two share the
quasi-identifier value 1, one is alone with value 2. -/
def kanonData : List Record :=
  [[("a".toList, Value.vint 1)], [("a".toList, Value.vint 1)],
   [("a".toList, Value.vint 2)]]

/-- Concrete quasi-identifier list for the k-anonymity evaluation. -/
def kanonQis : List Str := ["a".toList]

/-! ## Shared lemmas -/

/-- The regeneration loop's guard compares a length with itself, so the loop
body is unreachable whatever the fuel. -/
theorem uniqueRegenLoop_eq (regen : Rng → Value × Rng) (fuel : Nat)
    (d : List Value) (r : Rng) : uniqueRegenLoop regen fuel d r = (d, r) := by
  cases fuel with
  | zero => rfl
  | succ n => simp [uniqueRegenLoop]

/-- Unfolding `setNulls` one index at a time. -/
theorem setNulls_cons (d : List Value) (i : Nat) (rest : List Nat) :
    setNulls d (i :: rest) = setNulls (d.set i Value.vnone) rest := rfl

/-- Nulling positions does not change the column length. -/
theorem setNulls_length (idxs : List Nat) (d : List Value) :
    (setNulls d idxs).length = d.length := by
  induction idxs generalizing d with
  | nil => rfl
  | cons i rest ih => rw [setNulls_cons, ih, List.length_set]

/-- The null step never changes the column length. -/
theorem applyNullsStep_length (data d1 : List Value) (c : Constraints)
    (r r1 : Rng) (h : applyNullsStep data c r = some (d1, r1)) :
    d1.length = data.length := by
  cases hc : c.null_percentage with
  | none =>
      simp only [applyNullsStep, hc, Option.some.injEq, Prod.mk.injEq] at h
      rw [← h.1]
  | some p =>
      simp only [applyNullsStep, hc] at h
      split_ifs at h with hp hk <;>
        (simp only [Option.some.injEq, Prod.mk.injEq] at h
         rw [← h.1]
         try exact setNulls_length _ _)

/-- `applyConstraints` does not depend on the regeneration thunk: the only
place it could be consulted is the dead loop. -/
theorem applyConstraints_regen_irrel (regen1 regen2 : Rng → Value × Rng)
    (data : List Value) (c : Constraints) (r : Rng) :
    applyConstraints regen1 data c r = applyConstraints regen2 data c r := by
  unfold applyConstraints applyUniqueStep
  cases applyNullsStep data c r with
  | none => rfl
  | some p => simp [uniqueRegenLoop_eq]

/-- With `unique = true`, applying constraints deduplicates whatever the null
step produced. -/
theorem applyConstraints_unique_eq (regen : Rng → Value × Rng)
    (data : List Value) (c : Constraints) (r : Rng) (out : List Value)
    (r' : Rng) (hu : c.unique = true)
    (happ : applyConstraints regen data c r = some (out, r')) :
    ∃ d1 r1, applyNullsStep data c r = some (d1, r1) ∧ out = d1.dedup := by
  unfold applyConstraints at happ
  cases h1 : applyNullsStep data c r with
  | none => rw [h1] at happ; cases happ
  | some p =>
      obtain ⟨d1, r1⟩ := p
      rw [h1] at happ
      simp [applyUniqueStep, hu, uniqueRegenLoop_eq] at happ
      exact ⟨d1, r1, rfl, happ.1.symm⟩

/-! ## C10 -/

/-- C10: with a non-positive epsilon, both noise mechanisms return the input
column unchanged (the early `if self.epsilon <= 0: return data`), for every
input list — even one the main loop would reject. -/
theorem dp_nonpositive_epsilon_identity (eps sens delta : ℚ)
    (data : List Value) (r : Rng) (h : eps ≤ 0) :
    addLaplaceNoise eps sens data r = some (data, r) ∧
    addGaussianNoise eps sens delta data r = some (data, r) := by
  constructor
  · unfold addLaplaceNoise; rw [if_pos h]
  · unfold addGaussianNoise; rw [if_pos h]

/-- Witness for C10 at epsilon = −1 on a concrete column. -/
theorem dp_nonpositive_epsilon_identity_witness :
    addLaplaceNoise (-1) 1 [Value.vint 3] constRng = some ([Value.vint 3], constRng) ∧
    addGaussianNoise (-1) 1 (1/2) [Value.vint 3] constRng = some ([Value.vint 3], constRng) :=
  dp_nonpositive_epsilon_identity (-1) 1 (1/2) [Value.vint 3] constRng (by norm_num)

/-! ## C2 -/

/-- C2: under `unique = true` the constraint step deduplicates (each value at
most once), the result can only shrink, the regeneration loop never executes
(its guard is a length compared with itself), and no error arises from the
unique step — exhibited concretely by a two-element column shrinking to one. -/
theorem unique_constraint_shrinks_silently :
    (∀ (regen : Rng → Value × Rng) (fuel : Nat) (d : List Value) (r : Rng),
        uniqueRegenLoop regen fuel d r = (d, r)) ∧
    (∀ (regen : Rng → Value × Rng) (data : List Value) (c : Constraints)
        (r : Rng) (out : List Value) (r' : Rng), c.unique = true →
        applyConstraints regen data c r = some (out, r') →
        out.Nodup ∧ out.length ≤ data.length) ∧
    (∀ (regen : Rng → Value × Rng) (data : List Value) (c : Constraints)
        (r : Rng), c.null_percentage = none →
        applyConstraints regen data c r ≠ none) ∧
    (applyConstraints (fun r => (Value.vnone, r)) [Value.vint 1, Value.vint 1]
        { unique := true } constRng = some ([Value.vint 1], constRng) ∧
      ([Value.vint 1] : List Value).length <
        ([Value.vint 1, Value.vint 1] : List Value).length) := by
  refine ⟨fun regen fuel d r => uniqueRegenLoop_eq regen fuel d r, ?_, ?_, ?_, ?_⟩
  · intro regen data c r out r' hu happ
    obtain ⟨d1, r1, h1, hout⟩ :=
      applyConstraints_unique_eq regen data c r out r' hu happ
    subst hout
    refine ⟨List.nodup_dedup d1, ?_⟩
    calc d1.dedup.length ≤ d1.length := (List.dedup_sublist d1).length_le
      _ = data.length := applyNullsStep_length data d1 c r r1 h1
  · intro regen data c r hnp
    unfold applyConstraints applyNullsStep
    rw [hnp]
    simp
  · rfl
  · decide

/-- Witness for C2 on the two-element column `[1, 1]`. -/
theorem unique_constraint_shrinks_silently_witness :
    ([Value.vint 1] : List Value).Nodup ∧
      ([Value.vint 1] : List Value).length ≤
        ([Value.vint 1, Value.vint 1] : List Value).length :=
  unique_constraint_shrinks_silently.2.1 (fun r => (Value.vnone, r))
    [Value.vint 1, Value.vint 1] { unique := true } constRng
    [Value.vint 1] constRng rfl rfl

/-! ## C6 -/

/-- Null propagation is reflexive: the identity pass preserves nulls. -/
theorem nullPres_refl (d : List Value) : NullPres d d := ⟨rfl, fun _ hi => hi⟩

/-- Cons step for null propagation. -/
theorem nullPres_cons (v : Value) (vs : List Value) (w : Value)
    (rest : List Value) (hw : v = Value.vnone → w = Value.vnone)
    (hrest : NullPres vs rest) : NullPres (v :: vs) (w :: rest) := by
  obtain ⟨hl, hp⟩ := hrest
  refine ⟨by simpa using hl, fun i hi => ?_⟩
  cases i with
  | zero =>
      rw [List.getD_cons_zero] at hi ⊢
      exact hw hi
  | succ n =>
      rw [List.getD_cons_succ] at hi ⊢
      exact hp n hi

/-- Any per-element map that fixes `None` propagates nulls. -/
theorem nullPres_map (g : Value → Value) (hg : g Value.vnone = Value.vnone)
    (data : List Value) : NullPres data (data.map g) := by
  induction data with
  | nil => exact nullPres_refl []
  | cons v vs ih =>
      exact nullPres_cons v vs (g v) (vs.map g) (fun h => by rw [h, hg]) ih

/-- Any stateful per-element pass whose step fixes `None` propagates nulls. -/
theorem nullPres_stateMap (step : Value → Rng → Value × Rng)
    (hstep : ∀ r, (step Value.vnone r).1 = Value.vnone)
    (data : List Value) (r : Rng) : NullPres data (stateMap step data r).1 := by
  induction data generalizing r with
  | nil => exact nullPres_refl []
  | cons v vs ih =>
      show NullPres (v :: vs) ((step v r).1 :: (stateMap step vs (step v r).2).1)
      exact nullPres_cons v vs _ _ (fun h => by rw [h]; exact hstep r)
        (ih (step v r).2)

/-- Any fallible stateful pass whose step maps `None` to `None` (without
consuming random state) propagates nulls on success. -/
theorem nullPres_stateMapM (step : Value → Rng → Option (Value × Rng))
    (hstep : ∀ r, step Value.vnone r = some (Value.vnone, r))
    (data : List Value) (r : Rng) (out : List Value) (r' : Rng)
    (h : stateMapM step data r = some (out, r')) : NullPres data out := by
  induction data generalizing r out r' with
  | nil =>
      simp only [stateMapM, Option.some.injEq, Prod.mk.injEq] at h
      rw [← h.1]
      exact nullPres_refl []
  | cons v vs ih =>
      unfold stateMapM at h
      cases h1 : step v r with
      | none => rw [h1] at h; cases h
      | some p =>
          rw [h1, Option.some_bind] at h
          cases h2 : stateMapM step vs p.2 with
          | none => rw [h2] at h; cases h
          | some q =>
              rw [h2, Option.map_some'] at h
              simp only [Option.some.injEq, Prod.mk.injEq] at h
              rw [← h.1]
              refine nullPres_cons v vs p.1 q.1 (fun hv => ?_) (ih p.2 q.1 q.2 ?_)
              · rw [hv, hstep r] at h1
                have : p = (Value.vnone, r) := by
                  injection h1 with h1'
                  exact h1'.symm
                rw [this]
              · rw [h2]

/-- Nulls pass through `_pseudonymize`: the `None` guard precedes every map
lookup, whatever the accumulated pseudonym map. -/
theorem nullPres_pseudonymizeAux (ft : Str) (data : List Value)
    (pm : List (Str × Str)) (r : Rng) :
    NullPres data (pseudonymizeAux ft data pm r).1 := by
  induction data generalizing pm r with
  | nil => exact nullPres_refl []
  | cons v vs ih =>
      by_cases hv : v = Value.vnone
      · rw [hv]
        show NullPres (Value.vnone :: vs)
          (pseudonymizeAux ft (Value.vnone :: vs) pm r).1
        unfold pseudonymizeAux
        rw [if_pos rfl]
        exact nullPres_cons _ vs _ _ (fun _ => rfl) (ih pm r)
      · show NullPres (v :: vs) (pseudonymizeAux ft (v :: vs) pm r).1
        unfold pseudonymizeAux
        rw [if_neg hv]
        cases halo : alookup (pyStr v) pm with
        | some a =>
            simp only [halo]
            exact nullPres_cons v vs _ _ (fun h => absurd h hv) (ih pm r)
        | none =>
            simp only [halo]
            exact nullPres_cons v vs _ _ (fun h => absurd h hv) (ih _ _)

/-- C6: every anonymization routine (each field type, each privacy level) and
both noise mechanisms map `None` inputs to `None` outputs at the same
position, preserving the column length. -/
theorem null_propagation :
    (∀ (data : List Value) (ft lvl : Str) (r : Rng),
        NullPres data (anonymizeData data ft lvl r).1) ∧
    (∀ (eps sens : ℚ) (data : List Value) (r : Rng) (out : List Value)
        (r' : Rng), addLaplaceNoise eps sens data r = some (out, r') →
        NullPres data out) ∧
    (∀ (eps sens delta : ℚ) (data : List Value) (r : Rng) (out : List Value)
        (r' : Rng), addGaussianNoise eps sens delta data r = some (out, r') →
        NullPres data out) := by
  refine ⟨?_, ?_, ?_⟩
  · intro data ft lvl r
    unfold anonymizeData
    split_ifs with h1 h2 h3
    · exact nullPres_refl data
    · unfold mediumAnonymization
      split_ifs with m1 m2 m3
      · exact nullPres_map _ rfl data
      · exact nullPres_stateMap _ (fun _ => rfl) data r
      · exact nullPres_stateMap _ (fun _ => rfl) data r
      · exact nullPres_refl data
    · unfold highAnonymization
      split_ifs with m1 m2 m3
      · exact nullPres_pseudonymizeAux ft data [] r
      · exact nullPres_stateMap _ (fun _ => rfl) data r
      · exact nullPres_stateMap _ (fun _ => rfl) data r
      · exact nullPres_map _ rfl data
    · exact nullPres_refl data
  · intro eps sens data r out r' h
    unfold addLaplaceNoise at h
    split_ifs at h with he
    · simp only [Option.some.injEq, Prod.mk.injEq] at h
      rw [← h.1]
      exact nullPres_refl data
    · exact nullPres_stateMapM _ (fun _ => rfl) data r out r' h
  · intro eps sens delta data r out r' h
    unfold addGaussianNoise at h
    split_ifs at h with he
    · simp only [Option.some.injEq, Prod.mk.injEq] at h
      rw [← h.1]
      exact nullPres_refl data
    · exact nullPres_stateMapM _ (fun _ => rfl) data r out r' h

/-- Witness for C6: a null at position 0 survives medium email anonymization
and Laplace noise with epsilon 1. -/
theorem null_propagation_witness :
    (anonymizeData [Value.vnone, Value.vint 1] ftEmail "medium".toList
        constRng).1.getD 0 Value.vnone = Value.vnone ∧
    ([Value.vnone] : List Value).getD 0 Value.vnone = Value.vnone :=
  ⟨(null_propagation.1 [Value.vnone, Value.vint 1] ftEmail "medium".toList
      constRng).2 0 rfl,
   (null_propagation.2.1 1 1 [Value.vnone] constRng [Value.vnone] constRng
      rfl).2 0 rfl⟩

/-! ## C3 -/

/-- `str.split` never yields an empty list of pieces. -/
theorem pySplit_ne_nil (c : Char) (l : Str) : pySplit c l ≠ [] := by
  cases l with
  | nil => simp [pySplit]
  | cons x xs =>
      simp only [pySplit]
      cases h : pySplit c xs with
      | nil => simp
      | cons y ys => split_ifs <;> simp

/-- Splitting a string that does not contain the separator. -/
theorem pySplit_of_not_mem (c : Char) (l : Str) (h : c ∉ l) :
    pySplit c l = [l] := by
  induction l with
  | nil => rfl
  | cons x xs ih =>
      have hx : ¬x = c := fun e => h (e ▸ List.mem_cons_self x xs)
      have hxs : c ∉ xs := fun m => h (List.mem_cons_of_mem x m)
      simp only [pySplit, ih hxs]
      rw [if_neg hx]

/-- Splitting at the first separator occurrence peels off the prefix. -/
theorem pySplit_append (c : Char) (lp rest : Str) (h : c ∉ lp) :
    pySplit c (lp ++ c :: rest) = lp :: pySplit c rest := by
  induction lp with
  | nil =>
      simp only [List.nil_append, pySplit]
      cases hr : pySplit c rest with
      | nil => exact absurd hr (pySplit_ne_nil c rest)
      | cons y ys => simp [hr]
  | cons x xs ih =>
      have hx : ¬x = c := fun e => h (e ▸ List.mem_cons_self x xs)
      have hxs : c ∉ xs := fun m => h (List.mem_cons_of_mem x m)
      simp only [List.cons_append, pySplit, List.append_eq, ih hxs, if_neg hx]

/-- The email masking branch on a string of the shape `local@domain`. -/
theorem maskEmailItem_eq (lp dom : Str) (h1 : '@' ∉ lp) (h2 : '@' ∉ dom) :
    maskEmailItem (lp ++ '@' :: dom) =
      (if 1 < lp.length then
        lp.take 1 ++ List.replicate (lp.length - 1) '*' ++ '@' :: dom
       else '*' :: '@' :: dom) := by
  unfold maskEmailItem
  have hmem : '@' ∈ lp ++ '@' :: dom :=
    List.mem_append_right _ (List.mem_cons_self _ _)
  rw [if_pos hmem, pySplit_append _ _ _ h1, pySplit_of_not_mem _ _ h2]
  simp only [List.headD_cons, List.drop_succ_cons, List.drop_zero]

/-- Counterexample to C3 as stated: for the one-character local part `a`, the
code outputs `*@x.com` while the claimed formula
`local[0] + '*'·(len-1) + '@' + domain` yields `a@x.com`. -/
theorem email_mask_single_char_counterexample :
    (anonymizeData [Value.vstr "a@x.com".toList] ftEmail "medium".toList
        constRng).1 = [Value.vstr "*@x.com".toList] ∧
    "*@x.com".toList ≠ 'a' :: (List.replicate 0 '*' ++ '@' :: "x.com".toList) := by
  exact ⟨rfl, by decide⟩

/-- C3 amended: at level medium with field type email, a non-null
`local@domain` string is masked to
`local[0] + '*'·(len(local)-1) + '@' + domain` whenever the local part has at
least two characters, but a local part of at most one character collapses to
`*@domain` (the first character is not kept). -/
theorem email_mask_invariant_amended (lp dom : Str) (r : Rng)
    (h1 : '@' ∉ lp) (h2 : '@' ∉ dom) :
    (2 ≤ lp.length →
      maskEmailItem (lp ++ '@' :: dom) =
        lp.take 1 ++ List.replicate (lp.length - 1) '*' ++ '@' :: dom) ∧
    (lp.length ≤ 1 →
      maskEmailItem (lp ++ '@' :: dom) = '*' :: '@' :: dom) ∧
    (anonymizeData [Value.vstr (lp ++ '@' :: dom)] ftEmail "medium".toList
        r).1 = [Value.vstr (maskEmailItem (lp ++ '@' :: dom))] := by
  refine ⟨?_, ?_, ?_⟩
  · intro hl
    rw [maskEmailItem_eq lp dom h1 h2, if_pos (by omega)]
  · intro hl
    rw [maskEmailItem_eq lp dom h1 h2, if_neg (by omega)]
  · rfl

/-- Witness for the amended C3 on `ab@x.com`. -/
theorem email_mask_invariant_amended_witness :
    maskEmailItem ("ab".toList ++ '@' :: "x.com".toList) =
      "ab".toList.take 1 ++
        List.replicate ("ab".toList.length - 1) '*' ++ '@' :: "x.com".toList :=
  (email_mask_invariant_amended "ab".toList "x.com".toList constRng
    (by decide) (by decide)).1 (by decide)

/-! ## C5 -/

/-- `random.sample` contract: with enough population, it returns exactly `k`
pairwise distinct elements of the pool. -/
theorem sampleIdx_spec (k : Nat) (pool : List Nat) (r : Rng)
    (hk : k ≤ pool.length) (hnd : pool.Nodup) :
    (sampleIdx k pool r).1.length = k ∧ (sampleIdx k pool r).1.Nodup ∧
    ∀ x ∈ (sampleIdx k pool r).1, x ∈ pool := by
  induction k generalizing pool r with
  | zero => exact ⟨rfl, List.nodup_nil, by simp [sampleIdx]⟩
  | succ k ih =>
      cases pool with
      | nil => simp at hk
      | cons p ps =>
          have hjlt : r.nextNat.1 % (p :: ps).length < (p :: ps).length :=
            Nat.mod_lt _ (by simp)
          have hk' : k ≤ ((p :: ps).eraseIdx (r.nextNat.1 % (p :: ps).length)).length := by
            have := List.length_eraseIdx_add_one hjlt
            simp only [List.length_cons] at hk this ⊢
            omega
          have hnd' : ((p :: ps).eraseIdx (r.nextNat.1 % (p :: ps).length)).Nodup :=
            hnd.sublist (List.eraseIdx_sublist _ _)
          obtain ⟨ihl, ihnd, ihmem⟩ := ih _ r.nextNat.2 hk' hnd'
          have hx : (p :: ps).getD (r.nextNat.1 % (p :: ps).length) 0 ∈ (p :: ps) := by
            rw [(p :: ps).getD_eq_getElem 0 hjlt]
            exact List.getElem_mem hjlt
          have hxnotin : (p :: ps).getD (r.nextNat.1 % (p :: ps).length) 0 ∉
              (p :: ps).eraseIdx (r.nextNat.1 % (p :: ps).length) := by
            intro hmem
            obtain ⟨i, hik, hget⟩ := List.mem_eraseIdx_iff_getElem?.mp hmem
            have hilt : i < (p :: ps).length := by
              by_contra hge
              rw [List.getElem?_eq_none (le_of_not_lt hge)] at hget
              cases hget
            rw [List.getElem?_eq_getElem hilt] at hget
            have heq : (p :: ps)[i] = (p :: ps)[r.nextNat.1 % (p :: ps).length] := by
              injection hget with h'
              rw [h', (p :: ps).getD_eq_getElem 0 hjlt]
            exact hik (hnd.getElem_inj_iff.mp heq)
          refine ⟨?_, ?_, ?_⟩
          · show ((p :: ps).getD _ 0 :: (sampleIdx k _ _).1).length = k + 1
            rw [List.length_cons, ihl]
          · show ((p :: ps).getD _ 0 :: (sampleIdx k _ _).1).Nodup
            exact List.nodup_cons.mpr ⟨fun hm => hxnotin (ihmem _ hm), ihnd⟩
          · intro x hx'
            rcases List.mem_cons.mp hx' with rfl | hm
            · exact hx
            · exact (List.eraseIdx_sublist _ _).subset (ihmem x hm)

/-- With a percentage of at most 100, the sampled count stays within the
population. -/
theorem floor_count_le (n : Nat) (p : ℚ) (hp : p ≤ 100) :
    (⌊(n : ℚ) * p / 100⌋).toNat ≤ n := by
  have h1 : (n : ℚ) * p / 100 ≤ (n : ℚ) := by
    rw [div_le_iff₀ (by norm_num)]
    exact mul_le_mul_of_nonneg_left hp (by positivity)
  have h2 : ⌊(n : ℚ) * p / 100⌋ ≤ (n : ℤ) := by
    have := Int.floor_le_floor h1
    simpa using this
  exact Int.toNat_le.mpr h2

/-- Reading a position after nulling a set of valid positions: nulled where
sampled, untouched elsewhere. -/
theorem getD_setNulls (idxs : List Nat) (d : List Value) (i : Nat)
    (hall : ∀ j ∈ idxs, j < d.length) :
    (setNulls d idxs).getD i Value.vnone =
      if i ∈ idxs then Value.vnone else d.getD i Value.vnone := by
  induction idxs generalizing d with
  | nil => simp [setNulls]
  | cons j rest ih =>
      rw [setNulls_cons]
      have hall' : ∀ x ∈ rest, x < (d.set j Value.vnone).length := by
        intro x hxr
        rw [List.length_set]
        exact hall x (List.mem_cons_of_mem _ hxr)
      rw [ih _ hall']
      by_cases hir : i ∈ rest
      · rw [if_pos hir, if_pos (List.mem_cons_of_mem _ hir)]
      · rw [if_neg hir]
        by_cases hij : i = j
        · subst hij
          rw [if_pos (List.mem_cons_self _ _)]
          have hlt : i < d.length := hall i (List.mem_cons_self _ _)
          simp [List.getD_eq_getD_get?, List.getElem?_set_eq_of_lt _ hlt]
        · rw [if_neg (by simp [hij, hir])]
          simp [List.getD_eq_getD_get?,
            List.getElem?_set_ne (fun e => hij e.symm)]

/-- C5: with `null_percentage = p` (0 ≤ p ≤ 100) and no unique constraint,
applying constraints nulls exactly `⌊n·p/100⌋` pairwise distinct positions —
the sampled ones — and leaves every other position untouched. -/
theorem null_rate_exact (regen : Rng → Value × Rng) (data : List Value)
    (c : Constraints) (p : ℚ) (r : Rng)
    (hp : c.null_percentage = some p) (hu : c.unique = false)
    (h0 : 0 ≤ p) (h100 : p ≤ 100) :
    applyConstraints regen data c r =
      some (setNulls data
        (sampleIdx (⌊(data.length : ℚ) * p / 100⌋).toNat
          (List.range data.length) r).1,
        (sampleIdx (⌊(data.length : ℚ) * p / 100⌋).toNat
          (List.range data.length) r).2) ∧
    (sampleIdx (⌊(data.length : ℚ) * p / 100⌋).toNat
        (List.range data.length) r).1.Nodup ∧
    (sampleIdx (⌊(data.length : ℚ) * p / 100⌋).toNat
        (List.range data.length) r).1.length =
      (⌊(data.length : ℚ) * p / 100⌋).toNat ∧
    (∀ i ∈ (sampleIdx (⌊(data.length : ℚ) * p / 100⌋).toNat
        (List.range data.length) r).1, i < data.length) ∧
    (setNulls data
        (sampleIdx (⌊(data.length : ℚ) * p / 100⌋).toNat
          (List.range data.length) r).1).length = data.length ∧
    (∀ i ∈ (sampleIdx (⌊(data.length : ℚ) * p / 100⌋).toNat
        (List.range data.length) r).1,
      (setNulls data
          (sampleIdx (⌊(data.length : ℚ) * p / 100⌋).toNat
            (List.range data.length) r).1).getD i Value.vnone = Value.vnone) ∧
    (∀ i, i ∉ (sampleIdx (⌊(data.length : ℚ) * p / 100⌋).toNat
        (List.range data.length) r).1 →
      (setNulls data
          (sampleIdx (⌊(data.length : ℚ) * p / 100⌋).toNat
            (List.range data.length) r).1).getD i Value.vnone =
        data.getD i Value.vnone) := by
  have hkle : (⌊(data.length : ℚ) * p / 100⌋).toNat ≤ (List.range data.length).length := by
    rw [List.length_range]
    exact floor_count_le data.length p h100
  obtain ⟨hslen, hsnd, hsmem⟩ :=
    sampleIdx_spec _ (List.range data.length) r hkle (List.nodup_range _)
  have hmemlt : ∀ i ∈ (sampleIdx (⌊(data.length : ℚ) * p / 100⌋).toNat
      (List.range data.length) r).1, i < data.length :=
    fun i hi => List.mem_range.mp (hsmem i hi)
  refine ⟨?_, hsnd, hslen, hmemlt, setNulls_length _ _, ?_, ?_⟩
  · unfold applyConstraints applyNullsStep applyUniqueStep
    have hkle2 : (⌊(data.length : ℚ) * p / 100⌋).toNat ≤ data.length := by
      rw [List.length_range] at hkle
      exact hkle
    by_cases hppos : 0 < p
    · simp [hp, hppos, hkle2, hu]
    · have hp0 : p = 0 := le_antisymm (not_lt.mp hppos) h0
      subst hp0
      have hk0 : (⌊(data.length : ℚ) * 0 / 100⌋).toNat = 0 := by norm_num
      simp [hp, hppos, hu, hk0, sampleIdx, setNulls]
  · intro i hi
    rw [getD_setNulls _ _ _ hmemlt, if_pos hi]
  · intro i hi
    rw [getD_setNulls _ _ _ hmemlt, if_neg hi]

/-- Witness for C5: four values, fifty percent nulls, two positions nulled. -/
theorem null_rate_exact_witness :
    applyConstraints (fun r => (Value.vnone, r))
        [Value.vint 1, Value.vint 2, Value.vint 3, Value.vint 4]
        { null_percentage := some 50 } constRng =
      some (setNulls [Value.vint 1, Value.vint 2, Value.vint 3, Value.vint 4]
        (sampleIdx (⌊((4 : Nat) : ℚ) * 50 / 100⌋).toNat (List.range 4) constRng).1,
        (sampleIdx (⌊((4 : Nat) : ℚ) * 50 / 100⌋).toNat (List.range 4) constRng).2) :=
  (null_rate_exact (fun r => (Value.vnone, r))
    [Value.vint 1, Value.vint 2, Value.vint 3, Value.vint 4]
    { null_percentage := some 50 } 50 constRng rfl rfl (by norm_num)
    (by norm_num)).1

/-! ## C8 -/

/-- Dispatch-table lookup fails exactly off the registered keys. -/
theorem tblLookup_eq_none {α : Type} (k : Str) (tbl : List (Str × α))
    (h : k ∉ tbl.map Prod.fst) : tblLookup k tbl = none := by
  induction tbl with
  | nil => rfl
  | cons e rest ih =>
      simp only [List.map_cons, List.mem_cons] at h
      push_neg at h
      simp only [tblLookup]
      rw [if_neg h.1]
      exact ih h.2

/-- Dispatch-table lookup succeeds on every registered key. -/
theorem tblLookup_isSome {α : Type} (k : Str) (tbl : List (Str × α))
    (h : k ∈ tbl.map Prod.fst) : (tblLookup k tbl).isSome = true := by
  induction tbl with
  | nil => simp at h
  | cons e rest ih =>
      simp only [tblLookup]
      by_cases he : k = e.1
      · rw [if_pos he]; rfl
      · rw [if_neg he]
        simp only [List.map_cons, List.mem_cons] at h
        exact ih (h.resolve_left he)

/-- Under in-range percentages the null step always succeeds. -/
theorem applyNullsStep_isSome (data : List Value) (c : Constraints) (r : Rng)
    (hwf : ∀ p, c.null_percentage = some p → p ≤ 100) :
    (applyNullsStep data c r).isSome = true := by
  unfold applyNullsStep
  cases hc : c.null_percentage with
  | none => rfl
  | some p =>
      by_cases hppos : 0 < p
      · have := floor_count_le data.length p (hwf p hc)
        simp [hppos, this]
      · simp [hppos]

/-- Under in-range percentages the whole constraint step always succeeds. -/
theorem applyConstraints_isSome (regen : Rng → Value × Rng)
    (data : List Value) (c : Constraints) (r : Rng)
    (hwf : ∀ p, c.null_percentage = some p → p ≤ 100) :
    (applyConstraints regen data c r).isSome = true := by
  unfold applyConstraints
  have h := applyNullsStep_isSome data c r hwf
  cases hn : applyNullsStep data c r with
  | none => rw [hn] at h; cases h
  | some p => simp

/-- Under an in-range outlier percentage the outlier pass always succeeds. -/
theorem introduceOutliers_isSome (data : List Value) (o : ℚ) (r : Rng)
    (ho : o ≤ 100) : (introduceOutliers data o r).isSome = true := by
  unfold introduceOutliers
  by_cases h1 : o ≤ 0 ∨ data = []
  · simp [h1]
  · have := floor_count_le data.length o ho
    simp [h1, this]

/-- C8: each generator family raises its typed unknown-subtype error, before
any value is produced, exactly when the subtype string is off its dispatch
table; registered subtypes never raise at the column level under the data
model's percentage bounds, per-value failures being replaced by the family's
documented fallback (shown concretely for each family in the last three
conjuncts: the numeric `randint(1, 100)` fallback, the text
`Generated_<4 digits>` fallback, and the date wall-clock fallback). -/
theorem unknown_subtype_typed_error :
    (∀ (count : Nat) (sub : Str) (c : Constraints) (r : Rng),
        sub ∉ numericTypeNames →
        numericGenerate count sub c r =
          Except.error (GenError.unknownSubtype "numeric".toList sub)) ∧
    (∀ (fake : Str → Rng → Option (Value × Rng)) (count : Nat) (sub : Str)
        (c : Constraints) (r : Rng), sub ∉ textTypeNames →
        textGenerate fake count sub c r =
          Except.error (GenError.unknownSubtype "text".toList sub)) ∧
    (∀ (count : Nat) (sub : Str) (c : Constraints) (r : Rng) (clock : ℤ),
        sub ∉ dateTypeNames →
        dateGenerate count sub c r clock =
          Except.error (GenError.unknownSubtype "date".toList sub)) ∧
    (∀ (count : Nat) (sub : Str) (c : Constraints) (r : Rng),
        sub ∈ numericTypeNames → wfPercent c →
        (exValues (numericGenerate count sub c r)).isSome = true) ∧
    (∀ (fake : Str → Rng → Option (Value × Rng)) (count : Nat) (sub : Str)
        (c : Constraints) (r : Rng), sub ∈ textTypeNames → wfPercent c →
        (exValues (textGenerate fake count sub c r)).isSome = true) ∧
    (∀ (count : Nat) (sub : Str) (c : Constraints) (r : Rng) (clock : ℤ),
        sub ∈ dateTypeNames → wfPercent c →
        (exValues (dateGenerate count sub c r clock)).isSome = true) ∧
    exValues (numericGenerate 1 "integer".toList
        { min_val := some 5, max_val := some 1 } constRng) =
      some [Value.vint 1] ∧
    exValues (textGenerate (fun _ _ => none) 1 "name".toList {} constRng) =
      some [Value.vstr "Generated_1000".toList] ∧
    exValues (dateGenerate 1 "date".toList
        { start_date := some "garbage".toList } constRng 77) =
      some [Value.vdatetime 77] := by
  refine ⟨?_, ?_, ?_, ?_, ?_, ?_, ?_, ?_, ?_⟩
  · intro count sub c r h
    have hn := tblLookup_eq_none sub numericTypeFns h
    simp [numericGenerate, hn]
  · intro fake count sub c r h
    simp [textGenerate, h]
  · intro count sub c r clock h
    have hn := tblLookup_eq_none sub dateTypeFns h
    simp [dateGenerate, hn]
  · intro count sub c r hsub hwf
    have hsome := tblLookup_isSome sub numericTypeFns hsub
    unfold numericGenerate
    cases hf : tblLookup sub numericTypeFns with
    | none => rw [hf] at hsome; cases hsome
    | some f =>
        have hac := applyConstraints_isSome (numericRegen f c)
          (genLoopNum f c count r).1 c (genLoopNum f c count r).2 hwf.1
        cases hc : applyConstraints (numericRegen f c)
            (genLoopNum f c count r).1 c (genLoopNum f c count r).2 with
        | none => rw [hc] at hac; cases hac
        | some p =>
            cases hop : c.outlier_percentage with
            | none => simp [exValues, hc]
            | some op =>
                have hio := introduceOutliers_isSome p.1 op p.2 (hwf.2 op hop)
                cases hi : introduceOutliers p.1 op p.2 with
                | none => rw [hi] at hio; cases hio
                | some q => simp [exValues, hc, hi]
  · intro fake count sub c r hsub hwf
    unfold textGenerate
    rw [if_pos hsub]
    have hac := applyConstraints_isSome (textRegen fake sub)
      (genLoopText fake sub count r).1 c (genLoopText fake sub count r).2 hwf.1
    cases hc : applyConstraints (textRegen fake sub)
        (genLoopText fake sub count r).1 c (genLoopText fake sub count r).2 with
    | none => rw [hc] at hac; cases hac
    | some p => simp [exValues, hc]
  · intro count sub c r clock hsub hwf
    have hsome := tblLookup_isSome sub dateTypeFns hsub
    unfold dateGenerate
    cases hf : tblLookup sub dateTypeFns with
    | none => rw [hf] at hsome; cases hsome
    | some f =>
        have hac := applyConstraints_isSome (dateRegen f c clock)
          (genLoopDate f c clock count r).1 c
          (genLoopDate f c clock count r).2 hwf.1
        cases hc : applyConstraints (dateRegen f c clock)
            (genLoopDate f c clock count r).1 c
            (genLoopDate f c clock count r).2 with
        | none => rw [hc] at hac; cases hac
        | some p => simp [exValues, hc]
  · decide
  · decide
  · decide

/-- Witness for C8: the subtype `foo` is rejected by the numeric family, and
the registered subtype `integer` with default constraints succeeds. -/
theorem unknown_subtype_typed_error_witness :
    numericGenerate 2 "foo".toList {} constRng =
      Except.error (GenError.unknownSubtype "numeric".toList "foo".toList) ∧
    (exValues (numericGenerate 2 "integer".toList {} constRng)).isSome = true :=
  And.intro
    (unknown_subtype_typed_error.1 2 "foo".toList {} constRng (by decide))
    (unknown_subtype_typed_error.2.2.2.1 2 "integer".toList {} constRng
      (by decide)
      (by exact ⟨fun p hp => (nomatch hp), fun o ho => (nomatch ho)⟩))

/-! ## C1 -/

/-- Counterexample to C1 as stated: with the same seed (the same random
state) and the same single call, the date generator's per-value fallback
reports the wall clock, so two runs at different times differ. -/
theorem determinism_wallclock_counterexample :
    exValues (dateGenerate 1 "date".toList
        { start_date := some "garbage".toList } constRng 0) =
      some [Value.vdatetime 0] ∧
    exValues (dateGenerate 1 "date".toList
        { start_date := some "garbage".toList } constRng 1) =
      some [Value.vdatetime 1] ∧
    (some [Value.vdatetime 0] : Option (List Value)) ≠
      some [Value.vdatetime 1] := by
  exact ⟨by decide, by decide, by decide⟩

/-- Under well-formed date bounds the plain date sampler never raises. -/
theorem dateCore_isSome (c : Constraints) (r : Rng) (hd : wfDateBounds c) :
    (dateCore c r).isSome = true := by
  obtain ⟨s, e, hs, he, hle⟩ := hd
  unfold dateCore
  rw [hs, he]
  simp [hle]

/-- Under well-formed date bounds the datetime sampler never raises. -/
theorem datetimeCore_isSome (c : Constraints) (r : Rng) (hd : wfDateBounds c) :
    (datetimeCore c r).isSome = true := by
  obtain ⟨s, e, hs, he, hle⟩ := hd
  unfold datetimeCore
  rw [hs, he]
  simp [hle]

/-- A bounded integer draw stays within its bounds. -/
theorem randint_le (a b : ℤ) (r : Rng) (hab : a ≤ b) :
    a ≤ (randint a b r).1 ∧ (randint a b r).1 ≤ b := by
  show a ≤ a + ((r.ints r.ipos : ℤ)) % (b - a + 1) ∧
    a + ((r.ints r.ipos : ℤ)) % (b - a + 1) ≤ b
  have h0 := Int.emod_nonneg ((r.ints r.ipos : ℤ))
    (show b - a + 1 ≠ 0 by omega)
  have h2 := Int.emod_lt_of_pos ((r.ints r.ipos : ℤ))
    (show (0 : ℤ) < b - a + 1 by omega)
  omega

/-- Under well-formed time bounds the time sampler never raises. -/
theorem genTimeV_isSome (c : Constraints) (r : Rng) (ht : wfTimeBounds c) :
    (genTimeV c r).isSome = true := by
  obtain ⟨a, b, ha, hb, hab, hb8⟩ := ht
  unfold genTimeV
  have h1 : (randint a b r).1 ≤ 86399 := le_trans (randint_le a b r hab).2 hb8
  rw [ha, hb]
  simp [hab, h1]

/-- Each date per-value function is total under well-formed bounds. -/
theorem genDateV_isSome (c : Constraints) (r : Rng) (hd : wfDateBounds c) :
    (genDateV c r).isSome = true := by
  unfold genDateV
  rw [Option.isSome_map']
  exact dateCore_isSome c r hd

/-- The datetime wrapper is total under well-formed bounds. -/
theorem genDatetimeV_isSome (c : Constraints) (r : Rng) (hd : wfDateBounds c) :
    (genDatetimeV c r).isSome = true := by
  unfold genDatetimeV
  rw [Option.isSome_map']
  exact datetimeCore_isSome c r hd

/-- The date-range generator is total under well-formed bounds. -/
theorem genDateRangeV_isSome (c : Constraints) (r : Rng) (hd : wfDateBounds c) :
    (genDateRangeV c r).isSome = true := by
  unfold genDateRangeV
  have h := dateCore_isSome c r hd
  cases hv : dateCore c r with
  | none => rw [hv] at h; cases h
  | some p => simp [hv]

/-- The signup-date generator is total under well-formed bounds. -/
theorem genSignupDateV_isSome (c : Constraints) (r : Rng) (hd : wfDateBounds c) :
    (genSignupDateV c r).isSome = true := by
  unfold genSignupDateV
  have h := datetimeCore_isSome c (randomUnit r).2 hd
  cases hv : datetimeCore c (randomUnit r).2 with
  | none => rw [hv] at h; cases h
  | some p => simp [hv]

/-- The transaction-date generator is total under well-formed bounds. -/
theorem genTransactionDateV_isSome (c : Constraints) (r : Rng)
    (hd : wfDateBounds c) : (genTransactionDateV c r).isSome = true := by
  unfold genTransactionDateV
  have h := datetimeCore_isSome c r hd
  cases hv : datetimeCore c r with
  | none => rw [hv] at h; cases h
  | some p =>
      simp only [hv]
      split_ifs <;> rfl

/-- The post-date generator is total under well-formed bounds. -/
theorem genPostDateV_isSome (c : Constraints) (r : Rng)
    (hd : wfDateBounds c) : (genPostDateV c r).isSome = true := by
  unfold genPostDateV
  have h := datetimeCore_isSome c r hd
  cases hv : datetimeCore c r with
  | none => rw [hv] at h; cases h
  | some p =>
      simp only [hv]
      split_ifs <;> rfl

/-- The sensor-timestamp generator is total under well-formed bounds. -/
theorem genSensorTimestampV_isSome (c : Constraints) (r : Rng)
    (hd : wfDateBounds c) : (genSensorTimestampV c r).isSome = true := by
  unfold genSensorTimestampV
  have h := datetimeCore_isSome c r hd
  cases hv : datetimeCore c r with
  | none => rw [hv] at h; cases h
  | some p => simp [hv]

/-- When the per-value function never fails, the generation loop never
consults the wall clock. -/
theorem genLoopDate_clock_free (f : Constraints → Rng → Option (Value × Rng))
    (c : Constraints) (hf : ∀ rr, (f c rr).isSome = true) (n : Nat) (r : Rng)
    (t1 t2 : ℤ) : genLoopDate f c t1 n r = genLoopDate f c t2 n r := by
  induction n generalizing r with
  | zero => rfl
  | succ n ih =>
      have h := hf r
      cases hv : f c r with
      | none => rw [hv] at h; cases h
      | some p =>
          simp only [genLoopDate, hv]
          rw [ih p.2]

/-- Clock-independence of a whole date-generator call whose per-value
function is total. -/
theorem dateGenerate_clock_free (c : Constraints) (sub : Str)
    (f : Constraints → Rng → Option (Value × Rng))
    (hlk : tblLookup sub dateTypeFns = some f)
    (hf : ∀ rr, (f c rr).isSome = true) (count : Nat) (r : Rng) (t1 t2 : ℤ) :
    dateGenerate count sub c r t1 = dateGenerate count sub c r t2 := by
  unfold dateGenerate
  simp only [hlk]
  rw [genLoopDate_clock_free f c hf count r t1 t2,
    applyConstraints_regen_irrel (dateRegen f c t1) (dateRegen f c t2)]

/-- C1 amended: determinism holds for fixed seed and identical call order
except on the date generator's per-value fallback path.  In the model every
routine except the date generator is a function of the seeded random state
and its arguments alone, so determinism is structural there; the date
generator additionally reads the wall clock, but only in the fallback, so
whenever its bound strings are well-formed (they parse and are ordered) its
output is independent of the clock for every subtype. -/
theorem determinism_modulo_date_fallback (count : Nat) (sub : Str)
    (c : Constraints) (r : Rng) (t1 t2 : ℤ) (hsub : sub ∈ dateTypeNames)
    (hd : wfDateBounds c) (ht : wfTimeBounds c) :
    dateGenerate count sub c r t1 = dateGenerate count sub c r t2 := by
  simp only [dateTypeNames, dateTypeFns, List.map_cons, List.map_nil,
    List.mem_cons, List.not_mem_nil, or_false] at hsub
  rcases hsub with rfl | rfl | rfl | rfl | rfl | rfl | rfl | rfl | rfl | rfl
  · exact dateGenerate_clock_free c "date".toList genDateV rfl
      (fun rr => genDateV_isSome c rr hd) count r t1 t2
  · exact dateGenerate_clock_free c "datetime".toList genDatetimeV rfl
      (fun rr => genDatetimeV_isSome c rr hd) count r t1 t2
  · exact dateGenerate_clock_free c "time".toList genTimeV rfl
      (fun rr => genTimeV_isSome c rr ht) count r t1 t2
  · exact dateGenerate_clock_free c "date_range".toList genDateRangeV rfl
      (fun rr => genDateRangeV_isSome c rr hd) count r t1 t2
  · exact dateGenerate_clock_free c "signup_date".toList genSignupDateV rfl
      (fun rr => genSignupDateV_isSome c rr hd) count r t1 t2
  · exact dateGenerate_clock_free c "transaction_date".toList genTransactionDateV rfl
      (fun rr => genTransactionDateV_isSome c rr hd) count r t1 t2
  · exact dateGenerate_clock_free c "hire_date".toList genHireDateV rfl
      (fun rr => genDateV_isSome c rr hd) count r t1 t2
  · exact dateGenerate_clock_free c "visit_date".toList genVisitDateV rfl
      (fun rr => genDatetimeV_isSome c rr hd) count r t1 t2
  · exact dateGenerate_clock_free c "post_date".toList genPostDateV rfl
      (fun rr => genPostDateV_isSome c rr hd) count r t1 t2
  · exact dateGenerate_clock_free c "sensor_timestamp".toList genSensorTimestampV rfl
      (fun rr => genSensorTimestampV_isSome c rr hd) count r t1 t2

/-- Witness for the amended C1: default bounds, clocks 0 and 9 agree. -/
theorem determinism_modulo_date_fallback_witness :
    dateGenerate 1 "date".toList {} constRng 0 =
      dateGenerate 1 "date".toList {} constRng 9 :=
  determinism_modulo_date_fallback 1 "date".toList {} constRng 0 9
    (by decide)
    ⟨18262, 20088, by decide, by decide, by decide⟩
    ⟨0, 86399, by decide, by decide, by decide, by decide⟩

/-! ## C7 -/

/-- Round-half-to-even lands between floor and ceiling. -/
theorem roundHalfEven_bounds (q : ℚ) :
    ⌊q⌋ ≤ roundHalfEven q ∧ roundHalfEven q ≤ ⌈q⌉ := by
  have hfc : ⌊q⌋ ≤ ⌈q⌉ := Int.floor_le_ceil q
  have hceil : (⌊q⌋ : ℚ) < q → ⌊q⌋ + 1 ≤ ⌈q⌉ := by
    intro h
    have h2 : (⌊q⌋ : ℚ) < (⌈q⌉ : ℚ) := lt_of_lt_of_le h (Int.le_ceil q)
    exact_mod_cast h2
  unfold roundHalfEven
  dsimp only
  split_ifs with h1 h2 h3
  · exact ⟨le_refl _, hfc⟩
  · have hq : (⌊q⌋ : ℚ) < q := by
      have : (1 : ℚ)/2 < q - ⌊q⌋ := h2
      linarith
    exact ⟨by omega, hceil hq⟩
  · exact ⟨le_refl _, hfc⟩
  · have heq : q - (⌊q⌋ : ℚ) = 1/2 := le_antisymm (not_lt.mp h2) (not_lt.mp h1)
    have hq : (⌊q⌋ : ℚ) < q := by linarith
    exact ⟨by omega, hceil hq⟩

/-- Decimal rounding cannot cross a lower bound sitting on the rounding
grid. -/
theorem pyRound_ge (d : Nat) (mn x : ℚ) (a : ℤ)
    (hmn : mn * ((10 ^ d : ℕ) : ℚ) = a) (h : mn ≤ x) : mn ≤ pyRound x d := by
  unfold pyRound
  have hpow : (0 : ℚ) < ((10 ^ d : ℕ) : ℚ) := by positivity
  rw [le_div_iff₀ hpow, hmn]
  have h1 : a ≤ ⌊x * ((10 ^ d : ℕ) : ℚ)⌋ := Int.le_floor.mpr (by
    rw [← hmn]
    exact mul_le_mul_of_nonneg_right h (le_of_lt hpow))
  have h2 := (roundHalfEven_bounds (x * ((10 ^ d : ℕ) : ℚ))).1
  exact_mod_cast le_trans h1 h2

/-- Decimal rounding cannot cross an upper bound sitting on the rounding
grid. -/
theorem pyRound_le (d : Nat) (mx x : ℚ) (b : ℤ)
    (hmx : mx * ((10 ^ d : ℕ) : ℚ) = b) (h : x ≤ mx) : pyRound x d ≤ mx := by
  unfold pyRound
  have hpow : (0 : ℚ) < ((10 ^ d : ℕ) : ℚ) := by positivity
  rw [div_le_iff₀ hpow, hmx]
  have h1 : ⌈x * ((10 ^ d : ℕ) : ℚ)⌉ ≤ b := Int.ceil_le.mpr (by
    rw [← hmx]
    exact mul_le_mul_of_nonneg_right h (le_of_lt hpow))
  have h2 := (roundHalfEven_bounds (x * ((10 ^ d : ℕ) : ℚ))).2
  exact_mod_cast le_trans h2 h1

/-- Age values are clamped last, so they always land in the bounds. -/
theorem genAgeV_bounds (c : Constraints) (r : Rng)
    (h : c.min_val.getD 18 ≤ c.max_val.getD 80) :
    ∃ q r1, genAgeV c r = some (Value.vfloat q, r1) ∧
      c.min_val.getD 18 ≤ q ∧ q ≤ c.max_val.getD 80 := by
  unfold genAgeV
  refine ⟨_, _, rfl, le_max_right _ _, max_le (min_le_right _ _) h⟩

/-- Salary values stay within bounds that sit on the two-decimal grid. -/
theorem genSalaryV_bounds (c : Constraints) (r : Rng) (a b : ℤ)
    (hga : c.min_val.getD 30000 * 100 = a) (hgb : c.max_val.getD 200000 * 100 = b)
    (h : c.min_val.getD 30000 ≤ c.max_val.getD 200000) :
    ∃ q r1, genSalaryV c r = some (Value.vfloat q, r1) ∧
      c.min_val.getD 30000 ≤ q ∧ q ≤ c.max_val.getD 200000 := by
  unfold genSalaryV
  rw [if_neg (not_lt.mpr (div_nonneg (by linarith) (by norm_num)))]
  refine ⟨_, _, rfl, ?_, ?_⟩
  · exact pyRound_ge 2 _ _ a (by push_cast; linarith [hga]) (le_max_right _ _)
  · exact pyRound_le 2 _ _ b (by push_cast; linarith [hgb])
      (max_le (min_le_right _ _) h)

/-- Score values stay within bounds that sit on the one-decimal grid. -/
theorem genScoreV_bounds (c : Constraints) (r : Rng) (a b : ℤ)
    (hga : c.min_val.getD 0 * 10 = a) (hgb : c.max_val.getD 100 * 10 = b)
    (h : c.min_val.getD 0 ≤ c.max_val.getD 100) :
    ∃ q r1, genScoreV c r = some (Value.vfloat q, r1) ∧
      c.min_val.getD 0 ≤ q ∧ q ≤ c.max_val.getD 100 := by
  unfold genScoreV
  rw [if_neg (not_lt.mpr (div_nonneg (by linarith) (by norm_num)))]
  refine ⟨_, _, rfl, ?_, ?_⟩
  · exact pyRound_ge 1 _ _ a (by push_cast; linarith [hga]) (le_max_right _ _)
  · exact pyRound_le 1 _ _ b (by push_cast; linarith [hgb])
      (max_le (min_le_right _ _) h)

/-- When the per-value function always succeeds with values satisfying `P`,
every generated value satisfies `P`. -/
theorem genLoopNum_mem (f : Constraints → Rng → Option (Value × Rng))
    (c : Constraints) (P : Value → Prop)
    (hf : ∀ r, ∃ w r1, f c r = some (w, r1) ∧ P w) :
    ∀ (n : Nat) (r : Rng), ∀ v ∈ (genLoopNum f c n r).1, P v := by
  intro n
  induction n with
  | zero => intro r v hv; simp [genLoopNum] at hv
  | succ n ih =>
      intro r v hv
      obtain ⟨w, r1, hw, hP⟩ := hf r
      simp only [genLoopNum, hw] at hv
      rcases List.mem_cons.mp hv with rfl | hm
      · exact hP
      · exact ih r1 v hm

/-- Without a null constraint, constrained output values all come from the
generated column (the unique step only deduplicates). -/
theorem applyConstraints_mem_of_no_null (regen : Rng → Value × Rng)
    (data : List Value) (c : Constraints) (r : Rng) (out : List Value)
    (r' : Rng) (hn : c.null_percentage = none)
    (happ : applyConstraints regen data c r = some (out, r')) :
    ∀ v ∈ out, v ∈ data := by
  unfold applyConstraints applyNullsStep at happ
  simp only [hn, Option.map_some'] at happ
  by_cases hu : c.unique
  · simp [applyUniqueStep, hu, uniqueRegenLoop_eq] at happ
    intro v hv
    rw [← happ.1] at hv
    exact (List.dedup_sublist data).subset hv
  · simp [applyUniqueStep, hu] at happ
    intro v hv
    rw [← happ.1] at hv
    exact hv

/-- A successful numeric generator call with no outlier constraint factors
through the constraint step. -/
theorem numericGenerate_ok_elim (sub : Str)
    (f : Constraints → Rng → Option (Value × Rng))
    (hlk : tblLookup sub numericTypeFns = some f) (count : Nat)
    (c : Constraints) (r : Rng) (out : List Value) (r' : Rng)
    (hout : c.outlier_percentage = none)
    (h : numericGenerate count sub c r = Except.ok (out, r')) :
    applyConstraints (numericRegen f c) (genLoopNum f c count r).1 c
      (genLoopNum f c count r).2 = some (out, r') := by
  unfold numericGenerate at h
  simp only [hlk] at h
  cases hc : applyConstraints (numericRegen f c) (genLoopNum f c count r).1 c
      (genLoopNum f c count r).2 with
  | none => rw [hc] at h; cases h
  | some p =>
      simp only [hc, hout, Except.ok.injEq] at h
      rw [h]

/-- C7 amended: for `age` with any ordered bounds, and for `salary` (resp.
`score`) with ordered bounds that are integer multiples of 0.01 (resp. 0.1),
every generated value lies in the closed interval `[min_val, max_val]` —
provided no null or outlier injection is requested.  (The counterexample
shows the extra grid condition is needed: rounding happens after clamping.) -/
theorem bounded_distributions_amended :
    (∀ (count : Nat) (c : Constraints) (r : Rng) (out : List Value) (r' : Rng),
        c.min_val.getD 18 ≤ c.max_val.getD 80 → c.null_percentage = none →
        c.outlier_percentage = none →
        numericGenerate count "age".toList c r = Except.ok (out, r') →
        ∀ v ∈ out, ∃ q : ℚ, v = Value.vfloat q ∧
          c.min_val.getD 18 ≤ q ∧ q ≤ c.max_val.getD 80) ∧
    (∀ (count : Nat) (c : Constraints) (r : Rng) (out : List Value) (r' : Rng)
        (a b : ℤ), c.min_val.getD 30000 * 100 = a →
        c.max_val.getD 200000 * 100 = b →
        c.min_val.getD 30000 ≤ c.max_val.getD 200000 →
        c.null_percentage = none → c.outlier_percentage = none →
        numericGenerate count "salary".toList c r = Except.ok (out, r') →
        ∀ v ∈ out, ∃ q : ℚ, v = Value.vfloat q ∧
          c.min_val.getD 30000 ≤ q ∧ q ≤ c.max_val.getD 200000) ∧
    (∀ (count : Nat) (c : Constraints) (r : Rng) (out : List Value) (r' : Rng)
        (a b : ℤ), c.min_val.getD 0 * 10 = a → c.max_val.getD 100 * 10 = b →
        c.min_val.getD 0 ≤ c.max_val.getD 100 →
        c.null_percentage = none → c.outlier_percentage = none →
        numericGenerate count "score".toList c r = Except.ok (out, r') →
        ∀ v ∈ out, ∃ q : ℚ, v = Value.vfloat q ∧
          c.min_val.getD 0 ≤ q ∧ q ≤ c.max_val.getD 100) := by
  refine ⟨?_, ?_, ?_⟩
  · intro count c r out r' hle hnull houtl hok v hv
    have happ := numericGenerate_ok_elim "age".toList genAgeV rfl count c r
      out r' houtl hok
    have hv' := applyConstraints_mem_of_no_null _ _ _ _ _ _ hnull happ v hv
    refine genLoopNum_mem genAgeV c
      (fun w => ∃ q : ℚ, w = Value.vfloat q ∧
        c.min_val.getD 18 ≤ q ∧ q ≤ c.max_val.getD 80)
      (fun rr => ?_) count r v hv'
    obtain ⟨q, r1, hq, h1, h2⟩ := genAgeV_bounds c rr hle
    exact ⟨Value.vfloat q, r1, hq, q, rfl, h1, h2⟩
  · intro count c r out r' a b hga hgb hle hnull houtl hok v hv
    have happ := numericGenerate_ok_elim "salary".toList genSalaryV rfl count
      c r out r' houtl hok
    have hv' := applyConstraints_mem_of_no_null _ _ _ _ _ _ hnull happ v hv
    refine genLoopNum_mem genSalaryV c
      (fun w => ∃ q : ℚ, w = Value.vfloat q ∧
        c.min_val.getD 30000 ≤ q ∧ q ≤ c.max_val.getD 200000)
      (fun rr => ?_) count r v hv'
    obtain ⟨q, r1, hq, h1, h2⟩ := genSalaryV_bounds c rr a b hga hgb hle
    exact ⟨Value.vfloat q, r1, hq, q, rfl, h1, h2⟩
  · intro count c r out r' a b hga hgb hle hnull houtl hok v hv
    have happ := numericGenerate_ok_elim "score".toList genScoreV rfl count
      c r out r' houtl hok
    have hv' := applyConstraints_mem_of_no_null _ _ _ _ _ _ hnull happ v hv
    refine genLoopNum_mem genScoreV c
      (fun w => ∃ q : ℚ, w = Value.vfloat q ∧
        c.min_val.getD 0 ≤ q ∧ q ≤ c.max_val.getD 100)
      (fun rr => ?_) count r v hv'
    obtain ⟨q, r1, hq, h1, h2⟩ := genScoreV_bounds c rr a b hga hgb hle
    exact ⟨Value.vfloat q, r1, hq, q, rfl, h1, h2⟩

/-- Counterexample to C7 as stated: salary bounds `[0, 99.999]` — rounding
to two decimals after clamping produces 100.0, strictly above `max_val`. -/
theorem bounded_rounding_counterexample :
    exValues (numericGenerate 1 "salary".toList
        { min_val := some 0, max_val := some (mkRat 99999 1000) } rngSix) =
      some [Value.vfloat 100] ∧
    ¬((100 : ℚ) ≤ mkRat 99999 1000) := by
  constructor
  · have hsal : genSalaryV
        { min_val := some 0, max_val := some (mkRat 99999 1000) } rngSix =
        some (Value.vfloat 100, { rngSix with rpos := 1 }) := by
      unfold genSalaryV
      rw [if_neg (by norm_num)]
      norm_num [normalDraw, Rng.nextReal, rngSix, pyRound, roundHalfEven]
    simp +decide [numericGenerate, tblLookup, numericTypeFns, genLoopNum,
      hsal, applyConstraints, applyNullsStep, applyUniqueStep, exValues]
  · decide

/-- Witness for the amended C7: one age value with bounds 18 and 80 from a
six-deviation draw lands on the clamp at 80. -/
theorem bounded_distributions_amended_witness :
    ∃ q : ℚ, Value.vfloat 80 = Value.vfloat q ∧ (18 : ℚ) ≤ q ∧ q ≤ 80 :=
  bounded_distributions_amended.1 1
    { min_val := some 18, max_val := some 80 } rngSix [Value.vfloat 80]
    { rngSix with rpos := 1 }
    (by norm_num) rfl rfl
    (by
      have hage : genAgeV { min_val := some 18, max_val := some 80 } rngSix =
          some (Value.vfloat 80, { rngSix with rpos := 1 }) := by
        unfold genAgeV
        norm_num [normalDraw, Rng.nextReal, rngSix, pyTrunc]
      simp +decide [numericGenerate, tblLookup, numericTypeFns, genLoopNum,
        hage, applyConstraints, applyNullsStep, applyUniqueStep])
    (Value.vfloat 80) (by simp)

/-! ## C4 -/

/-- A hit in the left part of an association list survives appending. -/
theorem alookup_append_some (k : Str) (pm ext : List (Str × Str)) (a : Str)
    (h : alookup k pm = some a) : alookup k (pm ++ ext) = some a := by
  induction pm with
  | nil => cases h
  | cons e rest ih =>
      obtain ⟨k', v⟩ := e
      unfold alookup at h
      show (if k = k' then some v else alookup k (rest ++ ext)) = some a
      by_cases he : k = k'
      · rw [if_pos he] at h ⊢; exact h
      · rw [if_neg he] at h ⊢; exact ih h

/-- A miss in the left part of an association list defers to the right. -/
theorem alookup_append_none (k : Str) (pm rest2 : List (Str × Str))
    (h : alookup k pm = none) : alookup k (pm ++ rest2) = alookup k rest2 := by
  induction pm with
  | nil => rfl
  | cons e rest ih =>
      obtain ⟨k', v⟩ := e
      unfold alookup at h
      show (if k = k' then some v else alookup k (rest ++ rest2)) = alookup k rest2
      by_cases he : k = k'
      · rw [if_pos he] at h; cases h
      · rw [if_neg he] at h ⊢; exact ih h

/-- Looking a string up in a counter-numbered pseudonym map. -/
theorem alookup_aliasMap (aliasFn : Nat → Str) (s : Str) :
    ∀ (seen : List Str) (k : Nat),
      alookup s (aliasMap aliasFn k seen) =
        if s ∈ seen then some (aliasFn (k + firstIdx s seen + 1)) else none := by
  intro seen
  induction seen with
  | nil => intro k; simp [aliasMap, alookup]
  | cons x rest ih =>
      intro k
      by_cases hx : s = x
      · subst hx
        simp [aliasMap, alookup, firstIdx]
      · have hx' : ¬x = s := fun e => hx e.symm
        show (if s = x then some (aliasFn (k + 1))
          else alookup s (aliasMap aliasFn (k + 1) rest)) = _
        rw [if_neg hx, ih (k + 1)]
        have hidx : firstIdx s (x :: rest) = firstIdx s rest + 1 := by
          simp [firstIdx, hx']
        by_cases hm : s ∈ rest
        · rw [if_pos hm, if_pos (List.mem_cons.mpr (Or.inr hm)), hidx]
          have harith : k + 1 + firstIdx s rest + 1 =
              k + (firstIdx s rest + 1) + 1 := by omega
          rw [harith]
        · rw [if_neg hm, if_neg (by simp [hx, hm])]

/-- The length of a counter-numbered pseudonym map. -/
theorem aliasMap_length (aliasFn : Nat → Str) (seen : List Str) :
    ∀ k, (aliasMap aliasFn k seen).length = seen.length := by
  induction seen with
  | nil => intro k; rfl
  | cons x rest ih => intro k; simp [aliasMap, ih (k + 1)]

/-- Appending one fresh string extends the pseudonym map at the end. -/
theorem aliasMap_append (aliasFn : Nat → Str) (seen : List Str) (x : Str) :
    ∀ k, aliasMap aliasFn k (seen ++ [x]) =
      aliasMap aliasFn k seen ++ [(x, aliasFn (k + seen.length + 1))] := by
  induction seen with
  | nil => intro k; simp [aliasMap]
  | cons y rest ih =>
      intro k
      simp only [List.cons_append, List.append_eq, aliasMap, ih (k + 1),
        List.length_cons]
      have harith : k + 1 + rest.length + 1 = k + (rest.length + 1) + 1 := by
        omega
      rw [harith]

/-- First-seen accumulation only appends fresh elements. -/
theorem firstSeenAcc_eq_append {α : Type} [DecidableEq α] (l : List α) :
    ∀ seen : List α, ∃ extra, firstSeenAcc seen l = seen ++ extra ∧
      ∀ x ∈ extra, x ∉ seen := by
  induction l with
  | nil => intro seen; exact ⟨[], by simp [firstSeenAcc]⟩
  | cons s rest ih =>
      intro seen
      by_cases hs : s ∈ seen
      · obtain ⟨extra, he, hd⟩ := ih seen
        exact ⟨extra, by simp [firstSeenAcc, hs, he], hd⟩
      · obtain ⟨extra, he, hd⟩ := ih (seen ++ [s])
        refine ⟨s :: extra, ?_, ?_⟩
        · simp only [firstSeenAcc, hs, if_false, he, List.append_assoc,
            List.singleton_append]
        · intro x hx
          rcases List.mem_cons.mp hx with rfl | hm
          · exact hs
          · intro hxs
            exact hd x hm (List.mem_append_left _ hxs)

/-- The first index of a left-list member ignores the appended tail. -/
theorem firstIdx_append_left {α : Type} [DecidableEq α] (x : α)
    (l1 l2 : List α) (h : x ∈ l1) :
    firstIdx x (l1 ++ l2) = firstIdx x l1 := by
  induction l1 with
  | nil => simp at h
  | cons y rest ih =>
      by_cases hy : y = x
      · simp [firstIdx, hy]
      · have hx : x ∈ rest := (List.mem_cons.mp h).resolve_left
          (fun e => hy e.symm)
        simp [firstIdx, hy, ih hx]

/-- The first index of a fresh element appended at the end. -/
theorem firstIdx_append_self {α : Type} [DecidableEq α] (x : α)
    (l : List α) (h : x ∉ l) : firstIdx x (l ++ [x]) = l.length := by
  induction l with
  | nil => simp [firstIdx]
  | cons y rest ih =>
      have hy : ¬y = x := fun e => h (e ▸ List.mem_cons_self y rest)
      have hx : x ∉ rest := fun m => h (List.mem_cons_of_mem y m)
      simp [firstIdx, hy, ih hx]

/-- On members, the first index determines the element. -/
theorem firstIdx_inj {α : Type} [DecidableEq α] (x y : α) (l : List α)
    (hx : x ∈ l) (hy : y ∈ l) (h : firstIdx x l = firstIdx y l) : x = y := by
  induction l with
  | nil => simp at hx
  | cons z rest ih =>
      by_cases hzx : z = x
      · by_cases hzy : z = y
        · exact hzx.symm.trans hzy
        · simp only [firstIdx, if_pos hzx, if_neg hzy] at h
          omega
      · by_cases hzy : z = y
        · simp only [firstIdx, if_neg hzx, if_pos hzy] at h
          omega
        · simp only [firstIdx, if_neg hzx, if_neg hzy] at h
          exact ih ((List.mem_cons.mp hx).resolve_left (fun e => hzx e.symm))
            ((List.mem_cons.mp hy).resolve_left (fun e => hzy e.symm))
            (Nat.succ_injective h)

/-- Every element reaches the first-seen list (or was already seen). -/
theorem mem_firstSeenAcc {α : Type} [DecidableEq α] (x : α) (l : List α) :
    ∀ seen : List α, x ∈ l → x ∈ firstSeenAcc seen l := by
  induction l with
  | nil => intro seen h; simp at h
  | cons s rest ih =>
      intro seen hx
      have hseen : ∀ s2 : List α, (x ∈ s2) → x ∈ firstSeenAcc s2 rest := by
        intro s2 hm
        obtain ⟨extra, he, _⟩ := firstSeenAcc_eq_append rest s2
        rw [he]
        exact List.mem_append_left _ hm
      by_cases hs : s ∈ seen
      · rcases List.mem_cons.mp hx with rfl | hm
        · simp only [firstSeenAcc, hs, if_true]
          exact hseen seen hs
        · simp only [firstSeenAcc, hs, if_true]
          exact ih seen hm
      · rcases List.mem_cons.mp hx with rfl | hm
        · simp only [firstSeenAcc, hs, if_false]
          exact hseen (seen ++ [x]) (List.mem_append_right _ (by simp))
        · simp only [firstSeenAcc, hs, if_false]
          exact ih (seen ++ [s]) hm

/-- A digit character decodes to its digit. -/
theorem digitVal_digitChar (n : Nat) (h : n < 10) :
    digitVal (Nat.digitChar n) = n := by
  interval_cases n <;> rfl

/-- Decoding after appending one digit character. -/
theorem digitsToNat_append_digit (xs : Str) (c : Char) :
    digitsToNat (xs ++ [c]) = digitsToNat xs * 10 + digitVal c := by
  unfold digitsToNat
  rw [List.foldl_append]
  rfl

/-- The fueled digit rendering decodes back to its input. -/
theorem digitsToNat_natDigitsAux (fuel n : Nat) (h : n < fuel) :
    digitsToNat (natDigitsAux fuel n) = n := by
  induction fuel generalizing n with
  | zero => omega
  | succ fuel ih =>
      unfold natDigitsAux
      by_cases h10 : n < 10
      · rw [if_pos h10]
        simp [digitsToNat, digitVal_digitChar n h10]
      · rw [if_neg h10]
        rw [digitsToNat_append_digit, ih (n / 10) (by omega),
          digitVal_digitChar (n % 10) (by omega)]
        omega

/-- Decimal rendering round-trips. -/
theorem digitsToNat_natDigits (n : Nat) : digitsToNat (natDigits n) = n :=
  digitsToNat_natDigitsAux (n + 1) n (by omega)

/-- Decimal rendering is injective. -/
theorem natDigits_inj (m n : Nat) (h : natDigits m = natDigits n) : m = n := by
  rw [← digitsToNat_natDigits m, h, digitsToNat_natDigits]

/-- Distinct counters give distinct email aliases. -/
theorem emailAlias_inj (m n : Nat) (h : emailAlias m = emailAlias n) :
    m = n := by
  unfold emailAlias at h
  have h1 := List.append_cancel_right h
  exact natDigits_inj m n (List.append_cancel_left h1)

/-- Distinct counters give distinct name aliases. -/
theorem nameAlias_inj (m n : Nat) (h : nameAlias m = nameAlias n) : m = n := by
  unfold nameAlias at h
  exact natDigits_inj m n (List.append_cancel_left h)

/-- The pseudonym map assigns every non-null position an alias recorded in
the final map: the map only grows by appending, so aliases are stable. -/
theorem pseudonymizeAux_final (ft : Str) (data : List Value) :
    ∀ (pm : List (Str × Str)) (r : Rng),
      ∃ ext, ∀ i, i < data.length → data.getD i Value.vnone ≠ Value.vnone →
        ∃ a, alookup (pyStr (data.getD i Value.vnone)) (pm ++ ext) = some a ∧
          (pseudonymizeAux ft data pm r).1.getD i Value.vnone =
            Value.vstr a := by
  induction data with
  | nil => intro pm r; exact ⟨[], fun i hi => by simp at hi⟩
  | cons v vs ih =>
      intro pm r
      by_cases hv : v = Value.vnone
      · subst hv
        obtain ⟨ext, hext⟩ := ih pm r
        refine ⟨ext, fun i hi hne => ?_⟩
        cases i with
        | zero => simp at hne
        | succ n =>
            have h1 : vs.getD n Value.vnone ≠ Value.vnone := by simpa using hne
            have h2 : n < vs.length := by simpa using hi
            obtain ⟨a, ha1, ha2⟩ := hext n h2 h1
            refine ⟨a, by simpa using ha1, ?_⟩
            show (pseudonymizeAux ft (Value.vnone :: vs) pm r).1.getD (n + 1)
              Value.vnone = Value.vstr a
            unfold pseudonymizeAux
            rw [if_pos rfl]
            simpa using ha2
      · cases halo : alookup (pyStr v) pm with
        | some a0 =>
            obtain ⟨ext, hext⟩ := ih pm r
            refine ⟨ext, fun i hi hne => ?_⟩
            cases i with
            | zero =>
                refine ⟨a0, ?_, ?_⟩
                · rw [List.getD_cons_zero]
                  exact alookup_append_some _ pm ext a0 halo
                · unfold pseudonymizeAux
                  rw [if_neg hv]
                  simp [halo]
            | succ n =>
                have h1 : vs.getD n Value.vnone ≠ Value.vnone := by
                  simpa using hne
                have h2 : n < vs.length := by simpa using hi
                obtain ⟨a, ha1, ha2⟩ := hext n h2 h1
                refine ⟨a, by simpa using ha1, ?_⟩
                unfold pseudonymizeAux
                rw [if_neg hv]
                simp only [halo]
                simpa using ha2
        | none =>
            obtain ⟨ext, hext⟩ := ih
              (pm ++ [(pyStr v, (mkAlias ft pm.length r).1)])
              (mkAlias ft pm.length r).2
            refine ⟨(pyStr v, (mkAlias ft pm.length r).1) :: ext,
              fun i hi hne => ?_⟩
            cases i with
            | zero =>
                refine ⟨(mkAlias ft pm.length r).1, ?_, ?_⟩
                · rw [List.getD_cons_zero,
                    alookup_append_none _ pm _ halo]
                  show (if pyStr v = pyStr v then
                    some (mkAlias ft pm.length r).1 else _) = _
                  rw [if_pos rfl]
                · unfold pseudonymizeAux
                  rw [if_neg hv]
                  simp [halo]
            | succ n =>
                have h1 : vs.getD n Value.vnone ≠ Value.vnone := by
                  simpa using hne
                have h2 : n < vs.length := by simpa using hi
                obtain ⟨a, ha1, ha2⟩ := hext n h2 h1
                rw [List.append_assoc, List.singleton_append] at ha1
                refine ⟨a, by simpa using ha1, ?_⟩
                unfold pseudonymizeAux
                rw [if_neg hv]
                simp only [halo]
                simpa using ha2

/-- For a counter-numbered alias family (email, name), the alias at each
non-null position is the family alias of the 1-based first-seen rank of the
position's stringified value. -/
theorem pseudonymizeAux_alias (ft : Str) (aliasFn : Nat → Str)
    (hft : ∀ n r, mkAlias ft n r = (aliasFn (n + 1), r)) (data : List Value) :
    ∀ (seen : List Str) (r : Rng) (i : Nat), i < data.length →
      data.getD i Value.vnone ≠ Value.vnone →
      (pseudonymizeAux ft data (aliasMap aliasFn 0 seen) r).1.getD i
          Value.vnone =
        Value.vstr (aliasFn (firstIdx (pyStr (data.getD i Value.vnone))
          (firstSeenAcc seen (strsOf data)) + 1)) := by
  induction data with
  | nil => intro seen r i hi; simp at hi
  | cons v vs ih =>
      intro seen r i hi hne
      by_cases hv : v = Value.vnone
      · subst hv
        have hstrs : strsOf (Value.vnone :: vs) = strsOf vs := by
          simp [strsOf]
        cases i with
        | zero => simp at hne
        | succ n =>
            unfold pseudonymizeAux
            rw [if_pos rfl, hstrs]
            have := ih seen r n (by simpa using hi) (by simpa using hne)
            simpa using this
      · have hstrs : strsOf (v :: vs) = pyStr v :: strsOf vs := by
          simp [strsOf, hv]
        by_cases hmem : pyStr v ∈ seen
        · have halo : alookup (pyStr v) (aliasMap aliasFn 0 seen) =
              some (aliasFn (0 + firstIdx (pyStr v) seen + 1)) := by
            rw [alookup_aliasMap, if_pos hmem]
          have hfsa : firstSeenAcc seen (strsOf (v :: vs)) =
              firstSeenAcc seen (strsOf vs) := by
            rw [hstrs]
            simp [firstSeenAcc, hmem]
          cases i with
          | zero =>
              unfold pseudonymizeAux
              rw [if_neg hv]
              simp only [halo]
              obtain ⟨extra, hex, _⟩ := firstSeenAcc_eq_append (strsOf vs) seen
              rw [hfsa, hex]
              rw [List.getD_cons_zero, List.getD_cons_zero,
                firstIdx_append_left _ _ _ hmem, Nat.zero_add]
          | succ n =>
              unfold pseudonymizeAux
              rw [if_neg hv]
              simp only [halo]
              rw [hfsa]
              have := ih seen r n (by simpa using hi) (by simpa using hne)
              simpa using this
        · have halo : alookup (pyStr v) (aliasMap aliasFn 0 seen) = none := by
            rw [alookup_aliasMap, if_neg hmem]
          have hfsa : firstSeenAcc seen (strsOf (v :: vs)) =
              firstSeenAcc (seen ++ [pyStr v]) (strsOf vs) := by
            rw [hstrs]
            simp [firstSeenAcc, hmem]
          have hmk := hft (aliasMap aliasFn 0 seen).length r
          have hpm' : aliasMap aliasFn 0 seen ++
              [(pyStr v, aliasFn ((aliasMap aliasFn 0 seen).length + 1))] =
              aliasMap aliasFn 0 (seen ++ [pyStr v]) := by
            rw [aliasMap_append, aliasMap_length, Nat.zero_add]
          cases i with
          | zero =>
              unfold pseudonymizeAux
              rw [if_neg hv]
              simp only [halo, hmk]
              obtain ⟨extra, hex, _⟩ :=
                firstSeenAcc_eq_append (strsOf vs) (seen ++ [pyStr v])
              rw [hfsa, hex, List.getD_cons_zero, List.getD_cons_zero,
                firstIdx_append_left _ _ _
                  (List.mem_append_right _ (by simp)),
                firstIdx_append_self _ _ hmem, aliasMap_length]
          | succ n =>
              unfold pseudonymizeAux
              rw [if_neg hv]
              simp only [halo, hmk]
              rw [hfsa]
              have := ih (seen ++ [pyStr v]) r n (by simpa using hi)
                (by simpa using hne)
              rw [← hpm'] at this
              simpa using this

/-- The email branch of `mkAlias` is counter-numbered and draws nothing. -/
theorem mkAlias_email (n : Nat) (r : Rng) :
    mkAlias ftEmail n r = (emailAlias (n + 1), r) := by
  unfold mkAlias
  rw [if_pos rfl]

/-- The name branch of `mkAlias` is counter-numbered and draws nothing. -/
theorem mkAlias_name (n : Nat) (r : Rng) :
    mkAlias ftName n r = (nameAlias (n + 1), r) := by
  unfold mkAlias
  rw [if_neg (by decide), if_pos rfl]

/-- The stringification of a non-null position occurs among the column's
stringified non-null entries. -/
theorem pyStr_mem_strsOf (data : List Value) (i : Nat) (hi : i < data.length)
    (hne : data.getD i Value.vnone ≠ Value.vnone) :
    pyStr (data.getD i Value.vnone) ∈ strsOf data := by
  unfold strsOf
  apply List.mem_map_of_mem
  apply List.mem_filter.mpr
  refine ⟨?_, decide_eq_true hne⟩
  rw [data.getD_eq_getElem _ hi]
  exact List.getElem_mem hi

/-- Counterexample to C4 as stated: for the phone field type the alias is a
random draw, so two distinct originals can receive the same alias (here both
get `555-100-1000` under the constant-zero random stream). -/
theorem pseudonym_collision_counterexample :
    (pseudonymize [Value.vstr "111".toList, Value.vstr "222".toList] ftPhone
        constRng).1 =
      [Value.vstr "555-100-1000".toList, Value.vstr "555-100-1000".toList] ∧
    pyStr (Value.vstr "111".toList) ≠ pyStr (Value.vstr "222".toList) := by
  exact ⟨by decide, by decide⟩

/-- C4 amended: within one `_pseudonymize` call, equal stringified originals
always receive the same alias (every field type); for the counter-numbered
email and name field types the alias at each position is the family alias of
the first-seen rank of its value (so the map is a bijection numbered in
first-seen order), and distinct originals receive distinct aliases.  For
phone and address the aliases are random draws with no distinctness
guarantee. -/
theorem pseudonymization_amended :
    (∀ (ft : Str) (data : List Value) (r : Rng) (i j : Nat),
        i < data.length → j < data.length →
        data.getD i Value.vnone ≠ Value.vnone →
        data.getD j Value.vnone ≠ Value.vnone →
        pyStr (data.getD i Value.vnone) = pyStr (data.getD j Value.vnone) →
        (pseudonymize data ft r).1.getD i Value.vnone =
          (pseudonymize data ft r).1.getD j Value.vnone) ∧
    (∀ (data : List Value) (r : Rng) (i : Nat), i < data.length →
        data.getD i Value.vnone ≠ Value.vnone →
        (pseudonymize data ftEmail r).1.getD i Value.vnone =
          Value.vstr (emailAlias (firstIdx (pyStr (data.getD i Value.vnone))
            (firstSeen (strsOf data)) + 1))) ∧
    (∀ (data : List Value) (r : Rng) (i : Nat), i < data.length →
        data.getD i Value.vnone ≠ Value.vnone →
        (pseudonymize data ftName r).1.getD i Value.vnone =
          Value.vstr (nameAlias (firstIdx (pyStr (data.getD i Value.vnone))
            (firstSeen (strsOf data)) + 1))) ∧
    (∀ (ft : Str), ft = ftEmail ∨ ft = ftName →
        ∀ (data : List Value) (r : Rng) (i j : Nat),
        i < data.length → j < data.length →
        data.getD i Value.vnone ≠ Value.vnone →
        data.getD j Value.vnone ≠ Value.vnone →
        pyStr (data.getD i Value.vnone) ≠ pyStr (data.getD j Value.vnone) →
        (pseudonymize data ft r).1.getD i Value.vnone ≠
          (pseudonymize data ft r).1.getD j Value.vnone) := by
  have hnum : ∀ (ft : Str) (aliasFn : Nat → Str),
      (∀ (n : Nat) (rr : Rng), mkAlias ft n rr = (aliasFn (n + 1), rr)) →
      ∀ (data : List Value) (r : Rng) (i : Nat), i < data.length →
        data.getD i Value.vnone ≠ Value.vnone →
        (pseudonymize data ft r).1.getD i Value.vnone =
          Value.vstr (aliasFn (firstIdx (pyStr (data.getD i Value.vnone))
            (firstSeen (strsOf data)) + 1)) := by
    intro ft aliasFn hft data r i hi hne
    exact pseudonymizeAux_alias ft aliasFn hft data [] r i hi hne
  refine ⟨?_, ?_, ?_, ?_⟩
  · intro ft data r i j hi hj hni hnj heq
    obtain ⟨ext, hext⟩ := pseudonymizeAux_final ft data [] r
    obtain ⟨a, ha1, ha2⟩ := hext i hi hni
    obtain ⟨b, hb1, hb2⟩ := hext j hj hnj
    rw [heq, hb1] at ha1
    injection ha1 with hab
    show (pseudonymizeAux ft data [] r).1.getD i Value.vnone =
      (pseudonymizeAux ft data [] r).1.getD j Value.vnone
    rw [ha2, hb2, hab]
  · intro data r i hi hne
    exact hnum ftEmail emailAlias mkAlias_email data r i hi hne
  · intro data r i hi hne
    exact hnum ftName nameAlias mkAlias_name data r i hi hne
  · intro ft hcase data r i j hi hj hni hnj hsne
    obtain ⟨aliasFn, hft, hainj⟩ : ∃ aliasFn : Nat → Str,
        (∀ (n : Nat) (rr : Rng), mkAlias ft n rr = (aliasFn (n + 1), rr)) ∧
        (∀ m n, aliasFn m = aliasFn n → m = n) := by
      rcases hcase with rfl | rfl
      · exact ⟨emailAlias, mkAlias_email, emailAlias_inj⟩
      · exact ⟨nameAlias, mkAlias_name, nameAlias_inj⟩
    rw [hnum ft aliasFn hft data r i hi hni,
      hnum ft aliasFn hft data r j hj hnj]
    intro heq
    injection heq with heq1
    have hidx := hainj _ _ heq1
    have hmi : pyStr (data.getD i Value.vnone) ∈ firstSeen (strsOf data) :=
      mem_firstSeenAcc _ _ [] (pyStr_mem_strsOf data i hi hni)
    have hmj : pyStr (data.getD j Value.vnone) ∈ firstSeen (strsOf data) :=
      mem_firstSeenAcc _ _ [] (pyStr_mem_strsOf data j hj hnj)
    exact hsne (firstIdx_inj _ _ _ hmi hmj (Nat.succ_injective hidx))

/-- Witness for the amended C4: the third entry repeats the first, so it gets
the rank-based alias of the first-seen value. -/
theorem pseudonymization_amended_witness :
    (pseudonymize [Value.vint 1, Value.vint 2, Value.vint 1] ftEmail
        constRng).1.getD 2 Value.vnone =
      Value.vstr (emailAlias (firstIdx
        (pyStr (([Value.vint 1, Value.vint 2, Value.vint 1]).getD 2
          Value.vnone))
        (firstSeen (strsOf [Value.vint 1, Value.vint 2, Value.vint 1])) + 1)) :=
  pseudonymization_amended.2.1 [Value.vint 1, Value.vint 2, Value.vint 1]
    constRng 2 (by decide) (by decide)

/-! ## C9 -/

/-- First-seen accumulation keeps the accumulator distinct. -/
theorem firstSeenAcc_nodup {α : Type} [DecidableEq α] (l : List α) :
    ∀ seen : List α, seen.Nodup → (firstSeenAcc seen l).Nodup := by
  induction l with
  | nil => intro seen h; exact h
  | cons x rest ih =>
      intro seen h
      by_cases hx : x ∈ seen
      · simp only [firstSeenAcc, hx, if_true]
        exact ih seen h
      · simp only [firstSeenAcc, hx, if_false]
        exact ih (seen ++ [x]) (by simp [List.nodup_append, h, hx])

/-- Every first-seen element came from the accumulator or the list. -/
theorem firstSeenAcc_subset {α : Type} [DecidableEq α] (l : List α) :
    ∀ (seen : List α) (x : α), x ∈ firstSeenAcc seen l →
      x ∈ seen ∨ x ∈ l := by
  induction l with
  | nil => intro seen x h; exact Or.inl h
  | cons y rest ih =>
      intro seen x h
      by_cases hy : y ∈ seen
      · simp only [firstSeenAcc, hy, if_true] at h
        rcases ih seen x h with h1 | h1
        · exact Or.inl h1
        · exact Or.inr (List.mem_cons_of_mem _ h1)
      · simp only [firstSeenAcc, hy, if_false] at h
        rcases ih (seen ++ [y]) x h with h1 | h1
        · rcases List.mem_append.mp h1 with h2 | h2
          · exact Or.inl h2
          · exact Or.inr (List.mem_cons.mpr (Or.inl (by simpa using h2)))
        · exact Or.inr (List.mem_cons_of_mem _ h1)

/-- First-seen accumulation of one appended element. -/
theorem firstSeenAcc_append_singleton {α : Type} [DecidableEq α] (l : List α)
    (x : α) : ∀ seen : List α,
      firstSeenAcc seen (l ++ [x]) =
        if x ∈ firstSeenAcc seen l then firstSeenAcc seen l
        else firstSeenAcc seen l ++ [x] := by
  induction l with
  | nil =>
      intro seen
      simp [firstSeenAcc]
  | cons y rest ih =>
      intro seen
      by_cases hy : y ∈ seen
      · simp only [List.cons_append, firstSeenAcc, hy, if_true]
        exact ih seen
      · simp only [List.cons_append, firstSeenAcc, hy, if_false]
        exact ih (seen ++ [y])

/-- Inserting a record whose key is already a group key appends it to that
group; a fresh key opens a new group at the end.  Stated over the
first-seen-keyed map shape the invariant maintains. -/
theorem insertRecord_map (qis : List Str) (recs : List Record)
    (k0 : List Value) (rec : Record) : ∀ L : List (List Value),
    (k0 ∈ L → L.Nodup →
      insertRecord (L.map (fun K =>
          (K, recs.filter (fun rec2 => decide (keyOf qis rec2 = K))))) k0 rec =
        L.map (fun K => (K, recs.filter
            (fun rec2 => decide (keyOf qis rec2 = K)) ++
          (if K = k0 then [rec] else [])))) ∧
    (k0 ∉ L →
      insertRecord (L.map (fun K =>
          (K, recs.filter (fun rec2 => decide (keyOf qis rec2 = K))))) k0 rec =
        L.map (fun K =>
          (K, recs.filter (fun rec2 => decide (keyOf qis rec2 = K)))) ++
          [(k0, [rec])]) := by
  intro L
  induction L with
  | nil => exact ⟨fun h => absurd h (by simp), fun _ => rfl⟩
  | cons K0 rest ih =>
      constructor
      · intro hmem hnd
        simp only [List.map_cons, insertRecord]
        by_cases hk : k0 = K0
        · subst hk
          rw [if_pos rfl, if_pos rfl]
          have hrest : rest.map (fun K => (K, recs.filter
              (fun rec2 => decide (keyOf qis rec2 = K)) ++
                (if K = k0 then [rec] else []))) =
              rest.map (fun K => (K, recs.filter
                (fun rec2 => decide (keyOf qis rec2 = K)))) := by
            apply List.map_congr_left
            intro K hK
            rw [if_neg (by intro e; exact (List.nodup_cons.mp hnd).1 (e ▸ hK)),
              List.append_nil]
          rw [hrest]
        · rw [if_neg hk, if_neg (fun e => hk e.symm), List.append_nil]
          have hmem' : k0 ∈ rest := (List.mem_cons.mp hmem).resolve_left hk
          rw [(ih.1 hmem' (List.nodup_cons.mp hnd).2)]
      · intro hmem
        simp only [List.map_cons, insertRecord]
        have hk : ¬k0 = K0 := fun e => hmem (e ▸ List.mem_cons_self _ _)
        rw [if_neg hk, ih.2 (fun m => hmem (List.mem_cons_of_mem _ m))]
        simp

/-- One grouping step: inserting a record into the groups of the processed
prefix yields the groups of the prefix extended by that record. -/
theorem insertRecord_groupsOf (qis : List Str) (processed : List Record)
    (rec : Record) :
    insertRecord (groupsOf qis processed) (keyOf qis rec) rec =
      groupsOf qis (processed ++ [rec]) := by
  have hnd : (firstSeen (processed.map (keyOf qis))).Nodup :=
    firstSeenAcc_nodup (processed.map (keyOf qis)) ([] : List (List Value))
      List.nodup_nil
  have hkeys : firstSeen ((processed ++ [rec]).map (keyOf qis)) =
      if keyOf qis rec ∈ firstSeen (processed.map (keyOf qis))
      then firstSeen (processed.map (keyOf qis))
      else firstSeen (processed.map (keyOf qis)) ++ [keyOf qis rec] := by
    unfold firstSeen
    rw [List.map_append, List.map_singleton, firstSeenAcc_append_singleton]
    by_cases hm : keyOf qis rec ∈ firstSeenAcc [] (processed.map (keyOf qis))
    · rw [if_pos hm, if_pos hm]
    · rw [if_neg hm, if_neg hm]
  by_cases hmem : keyOf qis rec ∈ firstSeen (processed.map (keyOf qis))
  · rw [groupsOf,
      (insertRecord_map qis processed (keyOf qis rec) rec
        (firstSeen (processed.map (keyOf qis)))).1 hmem hnd,
      groupsOf, hkeys, if_pos hmem]
    apply List.map_congr_left
    intro K _
    have hsing : List.filter (fun rec2 => decide (keyOf qis rec2 = K)) [rec] =
        if K = keyOf qis rec then [rec] else [] := by
      by_cases h : K = keyOf qis rec
      · simp [List.filter_singleton, h]
      · simp [List.filter_singleton, h, Ne.symm h]
    rw [List.filter_append, hsing]
  · rw [groupsOf,
      (insertRecord_map qis processed (keyOf qis rec) rec
        (firstSeen (processed.map (keyOf qis)))).2 hmem,
      groupsOf, hkeys, if_neg hmem, List.map_append, List.map_singleton]
    have hnilrec : processed.filter
        (fun rec2 => decide (keyOf qis rec2 = keyOf qis rec)) = [] := by
      rw [List.filter_eq_nil_iff]
      intro rec2 h2
      simp only [decide_eq_true_eq]
      intro he
      exact hmem (mem_firstSeenAcc _ _ [] (List.mem_map.mpr ⟨rec2, h2, he⟩))
    have hsingle : (processed ++ [rec]).filter
        (fun rec2 => decide (keyOf qis rec2 = keyOf qis rec)) = [rec] := by
      rw [List.filter_append, hnilrec, List.nil_append, List.filter_singleton]
      simp
    rw [hsingle]
    have hrest : (firstSeen (processed.map (keyOf qis))).map
        (fun K => (K, (processed ++ [rec]).filter
          (fun rec2 => decide (keyOf qis rec2 = K)))) =
        (firstSeen (processed.map (keyOf qis))).map
          (fun K => (K, processed.filter
            (fun rec2 => decide (keyOf qis rec2 = K)))) := by
      apply List.map_congr_left
      intro K hK
      have hKne : ¬keyOf qis rec = K := fun e => hmem (e ▸ hK)
      rw [List.filter_append, List.filter_singleton]
      simp [hKne]
    rw [hrest]

/-- The grouping fold over the remaining records extends the groups of the
already-processed prefix. -/
theorem buildGroups_groupsOf (qis : List Str) :
    ∀ (todo processed : List Record),
      buildGroups qis todo (groupsOf qis processed) =
        groupsOf qis (processed ++ todo) := by
  intro todo
  induction todo with
  | nil => intro processed; simp [buildGroups]
  | cons rec rest ih =>
      intro processed
      simp only [buildGroups]
      rw [insertRecord_groupsOf, ih (processed ++ [rec]), List.append_assoc,
        List.singleton_append]

/-- Folding `optMin` from a realised minimum computes the `Nat` minimum. -/
theorem foldl_optMin_eq (xs : List Nat) :
    ∀ a : Nat, xs.foldl optMin (some a) = some (xs.foldl Nat.min a) := by
  induction xs with
  | nil => intro a; rfl
  | cons x rest ih => intro a; simpa [optMin] using ih (Nat.min a x)

/-- The `Nat.min` fold is a lower bound of its start and every element. -/
theorem foldl_min_le (xs : List Nat) :
    ∀ a y : Nat, y = a ∨ y ∈ xs → xs.foldl Nat.min a ≤ y := by
  induction xs with
  | nil =>
      intro a y h
      rcases h with rfl | h
      · exact Nat.le_refl _
      · simp at h
  | cons x rest ih =>
      intro a y h
      rcases h with rfl | h
      · exact Nat.le_trans (ih (Nat.min y x) _ (Or.inl rfl)) (Nat.min_le_left _ _)
      · rcases List.mem_cons.mp h with rfl | h2
        · exact Nat.le_trans (ih (Nat.min a y) _ (Or.inl rfl))
            (Nat.min_le_right _ _)
        · exact ih (Nat.min a x) y (Or.inr h2)

/-- The `Nat.min` fold is attained at its start or at some element. -/
theorem foldl_min_mem (xs : List Nat) :
    ∀ a : Nat, xs.foldl Nat.min a = a ∨ xs.foldl Nat.min a ∈ xs := by
  induction xs with
  | nil => intro a; exact Or.inl rfl
  | cons x rest ih =>
      intro a
      rcases ih (Nat.min a x) with h | h
      · by_cases hax : a ≤ x
        · refine Or.inl ?_
          rw [List.foldl_cons, h]
          exact Nat.min_eq_left hax
        · refine Or.inr ?_
          rw [List.foldl_cons, h]
          have hx : Nat.min a x = x :=
            Nat.min_eq_right (Nat.le_of_lt (Nat.lt_of_not_le hax))
          rw [hx]
          exact List.mem_cons_self _ _
      · exact Or.inr (List.mem_cons_of_mem _ (by rw [List.foldl_cons]; exact h))

/-- **C9**: on non-empty records and quasi-identifiers, `check_k_anonymity`
partitions the records by their quasi-identifier tuple (every record's key is
one of the first-seen group keys, and there is one group per distinct key);
the reported minimum group size is the true minimum cardinality over the
groups, the violation count is the number of groups of size `< k`, and
satisfaction holds iff every group has size `≥ k`. -/
theorem k_anonymity_correct (data : List Record) (qis : List Str) (k : Nat)
    (hd : data ≠ []) (hq : qis ≠ []) :
    (∀ rec ∈ data, keyOf qis rec ∈ firstSeen (data.map (keyOf qis))) ∧
    (checkKAnonymity data qis k).totalGroups =
      (firstSeen (data.map (keyOf qis))).length ∧
    (∃ m, (checkKAnonymity data qis k).minGroupSize = some m ∧
      (∃ K ∈ firstSeen (data.map (keyOf qis)), cntKey qis data K = m) ∧
      ∀ K ∈ firstSeen (data.map (keyOf qis)), m ≤ cntKey qis data K) ∧
    (checkKAnonymity data qis k).violations =
      (firstSeen (data.map (keyOf qis))).countP
        (fun K => decide (cntKey qis data K < k)) ∧
    ((checkKAnonymity data qis k).satisfied = true ↔
      ∀ K ∈ firstSeen (data.map (keyOf qis)), k ≤ cntKey qis data K) := by
  have hbg : buildGroups qis data [] = groupsOf qis data := by
    have h := buildGroups_groupsOf qis data []
    have h0 : groupsOf qis ([] : List Record) = [] := rfl
    rw [h0, List.nil_append] at h
    exact h
  have hck : checkKAnonymity data qis k =
      { satisfied :=
          decide ((((groupsOf qis data).map (fun g => g.2.length)).countP
            (fun n => decide (n < k))) = 0)
        minGroupSize := some ((((groupsOf qis data).map
            (fun g => g.2.length)).foldl optMin none).getD 0)
        violations := ((groupsOf qis data).map (fun g => g.2.length)).countP
            (fun n => decide (n < k))
        totalGroups := (groupsOf qis data).length } := by
    rw [checkKAnonymity, if_neg (not_or.mpr ⟨hd, hq⟩), hbg]
  have hsz : (groupsOf qis data).map (fun g => g.2.length) =
      (firstSeen (data.map (keyOf qis))).map (cntKey qis data) := by
    rw [groupsOf, List.map_map]
    apply List.map_congr_left
    intro K _
    simp [Function.comp, cntKey, List.countP_eq_length_filter]
  have hcov : ∀ rec ∈ data, keyOf qis rec ∈ firstSeen (data.map (keyOf qis)) := by
    intro rec hr
    exact mem_firstSeenAcc _ _ ([] : List (List Value))
      (List.mem_map.mpr ⟨rec, hr, rfl⟩)
  have hLne : firstSeen (data.map (keyOf qis)) ≠ [] := by
    cases data with
    | nil => exact absurd rfl hd
    | cons r0 rest0 =>
        intro hnil
        have hm := hcov r0 (List.mem_cons_self _ _)
        rw [hnil] at hm
        simp at hm
  refine ⟨hcov, ?_, ?_, ?_, ?_⟩
  · rw [hck]
    show (groupsOf qis data).length = _
    rw [groupsOf, List.length_map]
  · obtain ⟨x, xs, hL⟩ : ∃ x xs,
        (firstSeen (data.map (keyOf qis))).map (cntKey qis data) = x :: xs := by
      cases hc : (firstSeen (data.map (keyOf qis))).map (cntKey qis data) with
      | nil => exact absurd (List.map_eq_nil_iff.mp hc) hLne
      | cons x xs => exact ⟨x, xs, rfl⟩
    have hfold : ((firstSeen (data.map (keyOf qis))).map
        (cntKey qis data)).foldl optMin none = some (xs.foldl Nat.min x) := by
      rw [hL, List.foldl_cons]
      have h1 : optMin none x = some x := rfl
      rw [h1, foldl_optMin_eq]
    refine ⟨xs.foldl Nat.min x, ?_, ?_, ?_⟩
    · rw [hck]
      show some ((((groupsOf qis data).map
          (fun g => g.2.length)).foldl optMin none).getD 0) = _
      rw [hsz, hfold]
      rfl
    · have hmm : xs.foldl Nat.min x ∈
          (firstSeen (data.map (keyOf qis))).map (cntKey qis data) := by
        rw [hL]
        rcases foldl_min_mem xs x with h | h
        · rw [h]
          exact List.mem_cons_self _ _
        · exact List.mem_cons_of_mem _ h
      obtain ⟨K, hK, he⟩ := List.mem_map.mp hmm
      exact ⟨K, hK, he⟩
    · intro K hK
      have hmem2 : cntKey qis data K ∈ x :: xs := by
        rw [← hL]
        exact List.mem_map.mpr ⟨K, hK, rfl⟩
      rcases List.mem_cons.mp hmem2 with he | he
      · exact foldl_min_le xs x _ (Or.inl he)
      · exact foldl_min_le xs x _ (Or.inr he)
  · rw [hck]
    show ((groupsOf qis data).map (fun g => g.2.length)).countP
        (fun n => decide (n < k)) = _
    rw [hsz, List.countP_map]
    rfl
  · rw [hck]
    show decide (((groupsOf qis data).map (fun g => g.2.length)).countP
        (fun n => decide (n < k)) = 0) = true ↔ _
    rw [hsz, List.countP_map, decide_eq_true_eq, List.countP_eq_zero]
    constructor
    · intro h K hK
      have h2 := h K hK
      simp only [Function.comp, decide_eq_true_eq] at h2
      omega
    · intro h K hK
      simp only [Function.comp, decide_eq_true_eq]
      exact Nat.not_lt.mpr (h K hK)

/-- C9 witness: on three records over one quasi-identifier with values
1, 1, 2 and `k = 2`, the hypotheses hold, the checker reports minimum group
size 1, one violation, satisfaction false over two groups, and the theorem's
characterisation applies. -/
theorem k_anonymity_correct_witness :
    kanonData ≠ [] ∧ kanonQis ≠ [] ∧
    (checkKAnonymity kanonData kanonQis 2 =
      { satisfied := false, minGroupSize := some 1, violations := 1,
        totalGroups := 2 }) ∧
    ((∀ rec ∈ kanonData, keyOf kanonQis rec ∈
        firstSeen (kanonData.map (keyOf kanonQis))) ∧
      (checkKAnonymity kanonData kanonQis 2).totalGroups =
        (firstSeen (kanonData.map (keyOf kanonQis))).length ∧
      (∃ m, (checkKAnonymity kanonData kanonQis 2).minGroupSize = some m ∧
        (∃ K ∈ firstSeen (kanonData.map (keyOf kanonQis)),
          cntKey kanonQis kanonData K = m) ∧
        ∀ K ∈ firstSeen (kanonData.map (keyOf kanonQis)),
          m ≤ cntKey kanonQis kanonData K) ∧
      (checkKAnonymity kanonData kanonQis 2).violations =
        (firstSeen (kanonData.map (keyOf kanonQis))).countP
          (fun K => decide (cntKey kanonQis kanonData K < 2)) ∧
      ((checkKAnonymity kanonData kanonQis 2).satisfied = true ↔
        ∀ K ∈ firstSeen (kanonData.map (keyOf kanonQis)),
          2 ≤ cntKey kanonQis kanonData K)) :=
  ⟨by decide, by decide, by decide,
    k_anonymity_correct kanonData kanonQis 2 (by decide) (by decide)⟩
